import Mathlib

/-!
Verification of the FFS block filesystem against its specification.

This file gives a shallow embedding, in Lean 4, of the parts of the FFS
source that the checked claims are about:

* the compile-time disk layout (`src/filesystem/layout.rs`),
* the on-disk `Meta` sector (`src/filesystem/meta.rs`),
* the allocation bitmap (`ffs/src/filesystem/allocator/bitmap.rs`),
* the `DataWriter` (`src/filesystem/data_writer.rs`),
* the LRU block cache (`src/filesystem/cache.rs`),
* path utilities (`src/filesystem/paths.rs`),
* tree nodes and the directory tree
  (`ffs/src/filesystem/tree/tree_node.rs`, `src/filesystem/directory/tree.rs`),
* the allocator (`src/filesystem/allocator/mod.rs`) and the controller
  (`src/filesystem/controller.rs`).

Machine integers are modelled as `Nat` (`u32`/`u16` values stay far below
their bounds in every run considered here); byte buffers are `List Nat`
with each element `< 256`; fallible Rust functions return `Except Err`;
a Rust `panic!`/`assert!` failure is modelled as the distinguished error
`Err.panicked`.  Recursive functions over paths take an explicit fuel
argument (`fuel` strictly larger than the path length always suffices,
and every theorem below that depends on a recursive run is conditioned
on, or evaluates to, a successful result).
-/

namespace Ffs

/-- Rust `Block::LEN`: a sector is 512 bytes. -/
def BlockLEN : Nat := 512

/-- Rust `Name::LEN` (ffs/src/filesystem/name.rs): max name length 45. -/
def NameLEN : Nat := 45

/-- `Name::SERDE_LEN = Name::LEN + 1`. -/
def NameSERDE : Nat := NameLEN + 1

/-- `Entry::SERDE_LEN = Name::SERDE_LEN + size_of::<Addr>() + Kind::SERDE_LEN`. -/
def EntrySERDE : Nat := NameSERDE + 4 + 1

/-- `TreeNode::LEN = 30` (fanout). -/
def TreeNodeLEN : Nat := 30

/-- `TreeNode::SERDE_LEN = TreeNode::LEN * Entry::SERDE_LEN`. -/
def TreeNodeSERDE : Nat := TreeNodeLEN * EntrySERDE

/-- `SERDE_BLOCK_COUNT = SERDE_LEN.div_ceil(Block::LEN)` for a tree node. -/
def TreeNodeBLOCKS : Nat := (TreeNodeSERDE + BlockLEN - 1) / BlockLEN

/-- `Node::BLOCKS`/`BLOCKS_PER_NODE`: data blocks per inode. -/
def NodeBLOCKS : Nat := 10

/-- `Node::MAX_FILE_SIZE = BLOCKS * Block::LEN`. -/
def NodeMAX_FILE_SIZE : Nat := NodeBLOCKS * BlockLEN

/-- `Bitmap::SLOTS = 8 * Block::LEN = 4096`. -/
def BitmapSLOTS : Nat := 8 * BlockLEN

/-- `N_TREE` from src/filesystem/layout.rs. -/
def N_TREE : Nat := 100

/-- `N_FILE = N_TREE * TreeNode::LEN`. -/
def N_FILE : Nat := N_TREE * TreeNodeLEN

/-- `N_DATA = Node::BLOCKS_PER_NODE * N_FILE`. -/
def N_DATA : Nat := NodeBLOCKS * N_FILE

/-- `N_FREE = N_DATA / Bitmap::SLOTS` (integer division, as in the source). -/
def N_FREE : Nat := N_DATA / BitmapSLOTS

/-- Rust `Layout { begin, end, blocks_per_entry }` (src/filesystem/layout.rs).
`lo` models the `begin` field and `hi` models the `end` field. -/
structure Layout where
  lo : Nat
  hi : Nat
  blocksPerEntry : Nat
  deriving Repr, DecidableEq

/-- `Layout::new_with_size(begin, capacity, blocks_per_entry)`. -/
def Layout.newWithSize (lo capacity bpe : Nat) : Layout :=
  { lo := lo, hi := lo + capacity * bpe, blocksPerEntry := bpe }

/-- `Layout::new(begin, capacity)`. -/
def Layout.new (lo capacity : Nat) : Layout :=
  Layout.newWithSize lo capacity 1

/-- `next(prev, capacity, entry_size)` from src/filesystem/layout.rs. -/
def Layout.next (prev : Layout) (capacity entrySize : Nat) : Layout :=
  Layout.newWithSize prev.hi capacity entrySize

/-- `Layout::META`. -/
def Layout.META : Layout := Layout.new 0 1

/-- `Layout::TREE_BITMAP`. -/
def Layout.TREE_BITMAP : Layout := Layout.next Layout.META 1 1

/-- `Layout::TREE`. -/
def Layout.TREE : Layout := Layout.next Layout.TREE_BITMAP N_TREE TreeNodeBLOCKS

/-- `Layout::FILE`. -/
def Layout.FILE : Layout := Layout.next Layout.TREE N_FILE 1

/-- `Layout::NODE`. -/
def Layout.NODE : Layout := Layout.next Layout.FILE N_FILE 1

/-- `Layout::DATA_BITMAP`. -/
def Layout.DATA_BITMAP : Layout := Layout.next Layout.NODE N_FREE 1

/-- `Layout::DATA`. -/
def Layout.DATA : Layout := Layout.next Layout.DATA_BITMAP N_DATA 1

/-- `Layout::nth(logical) = begin + logical * blocks_per_entry`. -/
def Layout.nth (l : Layout) (logical : Nat) : Nat :=
  l.lo + logical * l.blocksPerEntry

/-- `Layout::sector_count`. -/
def Layout.sectorCount (l : Layout) : Nat := l.hi - l.lo

/-- `Layout::entries_count`. -/
def Layout.entriesCount (l : Layout) : Nat := l.sectorCount / l.blocksPerEntry

/-- Little-endian serialization of a `u16` (`to_le_bytes`). -/
def le16 (v : Nat) : List Nat := [v % 256, v / 256 % 256]

/-- Little-endian serialization of a `u32` (`to_le_bytes`). -/
def le32 (v : Nat) : List Nat :=
  [v % 256, v / 256 % 256, v / 65536 % 256, v / 16777216 % 256]

/-!
The `Meta` sector cited by claim C8 lives in `src/filesystem/meta.rs`,
whose `Meta::new` takes the region begins from the layout declared in
`src/filesystem/mod.rs` (regions `META`, `BTREE`, `FILE`, `NODE`, `FREE`,
`DATA` of type `Range`).  That layout's sizes come from `DirEntry`
(`src/filesystem/directory/dir_entry.rs`), `FileName`
(`src/filesystem/file_name.rs`), `FileEntry`
(`src/filesystem/directory/file_entry.rs`) and `Free`
(`src/filesystem/free.rs`).  Those constants are reproduced here under
the `V0` prefix to avoid clashing with the `Layout` above.
-/

/-- `MAX_FILENAME_LEN` (src/filesystem/mod.rs). -/
def V0MAX_FILENAME_LEN : Nat := 63

/-- `FileName::SERDE_LEN = MAX_FILENAME_LEN + 1`. -/
def V0FileNameSERDE : Nat := V0MAX_FILENAME_LEN + 1

/-- `FileEntry::SERDE_LEN = FileName::SERDE_LEN + 5`. -/
def V0FileEntrySERDE : Nat := V0FileNameSERDE + 5

/-- `DirEntry::MAX_CHILD_FILES`. -/
def V0MAX_CHILD_FILES : Nat := 27

/-- `DirEntry::MAX_CHILD_DIRS`. -/
def V0MAX_CHILD_DIRS : Nat := 16

/-- `DirEntry::SERDE_LEN`. -/
def V0DirEntrySERDE : Nat :=
  V0FileNameSERDE + V0MAX_CHILD_DIRS * 4 + V0MAX_CHILD_FILES * V0FileEntrySERDE

/-- `DirEntry::SERDE_BLOCK_COUNT = SERDE_LEN.div_ceil(Block::LEN)`. -/
def V0DirEntryBLOCKS : Nat := (V0DirEntrySERDE + BlockLEN - 1) / BlockLEN

/-- `MAX_BTREE_ENTRIES` (src/filesystem/mod.rs). -/
def V0MAX_BTREE_ENTRIES : Nat := 50

/-- `MAX_FILES = MAX_BTREE_ENTRIES * DirEntry::MAX_CHILD_FILES`. -/
def V0MAX_FILES : Nat := V0MAX_BTREE_ENTRIES * V0MAX_CHILD_FILES

/-- `MAX_DATA_BLOCKS = Node::BLOCKS_PER_NODE * MAX_FILES`. -/
def V0MAX_DATA_BLOCKS : Nat := NodeBLOCKS * V0MAX_FILES

/-- `Free::SLOTS = 8 * Block::LEN`. -/
def V0FreeSLOTS : Nat := 8 * BlockLEN

/-- `Layout::META` of src/filesystem/mod.rs (a `Range`). -/
def V0META : Layout := Layout.new 0 1

/-- `Layout::BTREE = META.next_range(MAX_BTREE_ENTRIES, DirEntry::SERDE_BLOCK_COUNT)`. -/
def V0BTREE : Layout := Layout.next V0META V0MAX_BTREE_ENTRIES V0DirEntryBLOCKS

/-- `Layout::FILE = BTREE.next_range(MAX_FILES, 1)`. -/
def V0FILE : Layout := Layout.next V0BTREE V0MAX_FILES 1

/-- `Layout::NODE = FILE.next_range(MAX_FILES, 1)`. -/
def V0NODE : Layout := Layout.next V0FILE V0MAX_FILES 1

/-- `Layout::FREE = NODE.next_range(MAX_DATA_BLOCKS / Free::SLOTS, 1)`. -/
def V0FREE : Layout := Layout.next V0NODE (V0MAX_DATA_BLOCKS / V0FreeSLOTS) 1

/-- `Layout::DATA = FREE.next_range(MAX_DATA_BLOCKS, 1)`. -/
def V0DATA : Layout := Layout.next V0FREE V0MAX_DATA_BLOCKS 1

/-- Rust `Meta` struct (src/filesystem/meta.rs): four region begins and
the block size. -/
structure Meta where
  fileSector : Nat
  nodeSector : Nat
  freeSector : Nat
  dataSector : Nat
  blockSize : Nat
  deriving Repr, DecidableEq

/-- `Meta::new()`: begins taken from the layout of src/filesystem/mod.rs. -/
def Meta.new : Meta :=
  { fileSector := V0FILE.lo
    nodeSector := V0NODE.lo
    freeSector := V0FREE.lo
    dataSector := V0DATA.lo
    blockSize := BlockLEN }

/-- `Meta::serialize` (src/filesystem/meta.rs): four little-endian u32s
(file, node, free, data), a little-endian u16 block size, 492 zero bytes,
then the signature bytes `0x13 0x37`. -/
def Meta.serialize (m : Meta) : List Nat :=
  le32 m.fileSector ++ le32 m.nodeSector ++ le32 m.freeSector ++
    le32 m.dataSector ++ le16 m.blockSize ++ List.replicate 492 0 ++ [0x13, 0x37]

/-- The sector-0 byte layout asserted by claim C8, built word for word
from the claim: six little-endian u32 region begin addresses
(tree_bitmap, tree, file, node, data_bitmap, data, with the begins of
the layout in src/filesystem/layout.rs), a little-endian u16 block size
512, 484 zero bytes, then `0x13 0x37`.  It is compared against
`Meta.serialize`, which is translated from the source. -/
def metaBytesClaimC8 : List Nat :=
  le32 Layout.TREE_BITMAP.lo ++ le32 Layout.TREE.lo ++ le32 Layout.FILE.lo ++
    le32 Layout.NODE.lo ++ le32 Layout.DATA_BITMAP.lo ++ le32 Layout.DATA.lo ++
    le16 512 ++ List.replicate 484 0 ++ [0x13, 0x37]

/-!
## Allocation bitmap (ffs/src/filesystem/allocator/bitmap.rs)

A bitmap covers one 512-byte sector; bytes are `Nat` values `< 256`.
-/

/-- Helper for `u8::trailing_ones`, with enough budget for the 8 bits of a
byte: counts the consecutive set bits of `b` starting at bit 0. -/
def trailingOnesGo : Nat → Nat → Nat
  | 0, _ => 0
  | f + 1, b => if b % 2 = 1 then trailingOnesGo f (b / 2) + 1 else 0

/-- `u8::trailing_ones(b)` for a byte value `b < 256`. -/
def trailingOnes (b : Nat) : Nat := trailingOnesGo 8 b

/-- Rust `Bitmap { inner, last_free }`: 512 bytes plus the RAM-only
hot-byte heuristic. -/
structure Bitmap where
  inner : List Nat
  lastFree : Nat
  deriving Repr, DecidableEq

/-- The loop body of `Bitmap::allocate`: scans the byte list (which is
`inner` with the first `last_free` bytes skipped), where `j` is the
absolute index of the current byte.  On the first byte whose
trailing-ones count is below 8 it sets that bit and reports the absolute
byte index, the bit position inside the byte, and the updated byte list. -/
def allocateFrom : List Nat → Nat → Option (Nat × Nat × List Nat)
  | [], _ => none
  | b :: rest, j =>
    let t := trailingOnes b
    if t < 8 then some (j, t, (b ||| (1 <<< t)) :: rest)
    else (allocateFrom rest (j + 1)).map fun r => (r.1, r.2.1, b :: r.2.2)

/-- `Bitmap::allocate`: skip to `last_free`, find the first byte with a
zero bit, flip it, set `last_free` to that byte's absolute index
(`self.last_free += pos` with `pos` counted from the skip point), and
return `8 * last_free + taken_bits`. -/
def Bitmap.allocate (bm : Bitmap) : Option (Nat × Bitmap) :=
  match allocateFrom (bm.inner.drop bm.lastFree) bm.lastFree with
  | none => none
  | some (j, t, tl) => some (8 * j + t, ⟨bm.inner.take bm.lastFree ++ tl, j⟩)

/-- `Bitmap::release(addr)`: clear bit `addr % 8` of byte `addr / 8` and
lower `last_free` to that byte if it is smaller. -/
def Bitmap.release (bm : Bitmap) (addr : Nat) : Bitmap :=
  let shift := addr % 8
  let pos := addr / 8
  { inner := bm.inner.set pos ((bm.inner.getD pos 0) &&& (255 ^^^ (1 <<< shift)))
    lastFree := if pos < bm.lastFree then pos else bm.lastFree }

/-- Bit `q` of the bitmap byte list is zero (the slot is free). -/
def bitIsFree (inner : List Nat) (q : Nat) : Prop :=
  q / 8 < inner.length ∧ Nat.testBit (inner.getD (q / 8) 0) (q % 8) = false

instance (inner : List Nat) (q : Nat) : Decidable (bitIsFree inner q) :=
  inferInstanceAs (Decidable (_ ∧ _))

/-!
## DataWriter (src/filesystem/data_writer.rs)
-/

/-- `slice::chunks(n)` with an explicit recursion budget (the list length
bounds the number of chunks whenever `n ≥ 1`). -/
def chunksGo (n : Nat) : Nat → List Nat → List (List Nat)
  | _, [] => []
  | 0, _ => []
  | f + 1, l => l.take n :: chunksGo n f (l.drop n)

/-- `data.chunks(n)` for a byte list. -/
def chunks (n : Nat) (l : List Nat) : List (List Nat) := chunksGo n l.length l

/-- Rust `DataWriter { block_addrs, data }`. -/
structure DataWriter where
  blockAddrs : List Nat
  data : List Nat
  deriving Repr, DecidableEq

/-- `DataWriter::new`: the constructor asserts
`block_addrs.len() * Block::LEN != data.len().div_ceil(Block::LEN)`;
a failed `assert!` (a Rust panic) is modelled as `none`. -/
def DataWriter.new (blockAddrs data : List Nat) : Option DataWriter :=
  if blockAddrs.length * BlockLEN ≠ (data.length + (BlockLEN - 1)) / BlockLEN then
    some ⟨blockAddrs, data⟩
  else none

/-- The loop of `DataWriter::write_to_device`: chunk `i` is written to
sector `Layout::DATA.nth(block_addrs[i])`; an out-of-bounds index (a Rust
panic) is modelled as `none`.  Returns the `(sector, bytes)` writes in
issue order. -/
def dataWriterGo (addrs : List Nat) : Nat → List (List Nat) → Option (List (Nat × List Nat))
  | _, [] => some []
  | i, c :: cs =>
    match addrs.get? i with
    | none => none
    | some a => (dataWriterGo addrs (i + 1) cs).map fun r => (Layout.DATA.nth a, c) :: r

/-- `DataWriter::write_to_device`. -/
def DataWriter.writeToDevice (w : DataWriter) : Option (List (Nat × List Nat)) :=
  dataWriterGo w.blockAddrs 0 (chunks BlockLEN w.data)

/-!
## LRU block cache (src/filesystem/cache.rs)

The underlying block device is modelled as a total map from sector to
block content (the in-memory and file-backed devices of the repository
read and write pure sector contents).  `BlockCache` keeps 8 optional
`(sector, block)` entries, most recently used first.
-/

/-- A block device state: sector number to block content. -/
abbrev Device : Type := Nat → List Nat

/-- One block-device call. -/
inductive DevOp where
  | read (sector : Nat)
  | write (sector : Nat) (block : List Nat)

/-- The cache array: 8 optional `(sector, block)` entries. -/
abbrev Cache : Type := List (Option (Nat × List Nat))

/-- `BlockCache::mount`: all 8 entries empty. -/
def Cache.mount : Cache := List.replicate 8 none

/-- `iter().position(...)` over the cache: index of the first entry whose
sector matches. -/
def cachePosGo (s : Nat) : List (Option (Nat × List Nat)) → Option Nat
  | [] => none
  | e :: rest =>
    if e.map Prod.fst = some s then some 0 else (cachePosGo s rest).map (· + 1)

/-- Position of the cached entry for sector `s`, if any. -/
def cachePos (c : Cache) (s : Nat) : Option Nat := cachePosGo s c

/-- `slice::swap(i, j)`; both indices are in bounds at every use below
(the fallback branch returns the list unchanged). -/
def listSwap {α : Type} (l : List α) (i j : Nat) : List α :=
  match l.get? i, l.get? j with
  | some a, some b => (l.set i b).set j a
  | _, _ => l

/-- `BlockCache::get`: if sector `s` is cached, swap its entry to
position 0 and return the block stored there. -/
def cacheGet (c : Cache) (s : Nat) : Option (List Nat) × Cache :=
  match cachePos c s with
  | some pos =>
    let c2 := listSwap c 0 pos
    ((c2.getD 0 none).map Prod.snd, c2)
  | none => (none, c)

/-- `BlockCache::insert`: `rotate_right(1)` then overwrite position 0,
evicting the previous last entry. -/
def cacheInsert (c : Cache) (s : Nat) (b : List Nat) : Cache :=
  let r := match c.getLast? with
    | some last => last :: c.dropLast
    | none => c
  r.set 0 (some (s, b))

/-- `BlockCache::read_block`: serve from the cache on a hit; otherwise
read the device and insert the block at position 0. -/
def cacheReadBlock (d : Device) (c : Cache) (s : Nat) : List Nat × Cache :=
  match cacheGet c s with
  | (some b, c2) => (b, c2)
  | (none, _) => (d s, cacheInsert c s (d s))

/-- `BlockCache::write_block`: write through to the device, then update
the cached entry in place if present (after `get` swaps it to front). -/
def cacheWriteBlock (d : Device) (c : Cache) (s : Nat) (b : List Nat) :
    Device × Cache :=
  let d2 : Device := fun x => if x = s then b else d x
  match cachePos c s with
  | some pos => (d2, (listSwap c 0 pos).set 0 (some (s, b)))
  | none => (d2, c)

/-- Run a sequence of device calls through the cache, collecting the
blocks returned by reads and the final device state. -/
def runCached (d : Device) (c : Cache) : List DevOp → List (List Nat) × Device
  | [] => ([], d)
  | .read s :: ops =>
    let rc := cacheReadBlock d c s
    let rest := runCached d rc.2 ops
    (rc.1 :: rest.1, rest.2)
  | .write s b :: ops =>
    let wc := cacheWriteBlock d c s b
    runCached wc.1 wc.2 ops

/-- Run the same sequence directly on the device, no cache interposed. -/
def runDirect (d : Device) : List DevOp → List (List Nat) × Device
  | [] => ([], d)
  | .read s :: ops =>
    let rest := runDirect d ops
    (d s :: rest.1, rest.2)
  | .write s b :: ops => runDirect (fun x => if x = s then b else d x) ops

/-!
## Errors (src/error.rs)

A Rust `panic!` / failed `assert!` / exhausted recursion budget is
modelled as the distinguished value `Err.panicked`, which no operation
reports as a clean error.
-/

/-- Decidable equality for `Except` results (both components decidable). -/
instance {ε α : Type} [DecidableEq ε] [DecidableEq α] : DecidableEq (Except ε α) :=
  fun x y =>
    match x, y with
    | .ok a, .ok b => decidable_of_iff (a = b) (by simp)
    | .error a, .error b => decidable_of_iff (a = b) (by simp)
    | .ok _, .error _ => isFalse (fun h => by cases h)
    | .error _, .ok _ => isFalse (fun h => by cases h)

inductive Err where
  | bufferTooSmall (expected found : Nat)
  | fileAlreadyExists
  | fileNameTooLong
  | fileNotFound
  | fileTooLarge
  | directoryFull
  | directoryNotFound
  | storageFull
  | unsupportedDevice
  | panicked
  deriving Repr, DecidableEq

/-!
## Paths (src/filesystem/paths.rs)

Paths are modelled as `List Char`; `/` is `paths::SEPARATOR`.  Name
comparison in the tree is `str::cmp`, i.e. lexicographic byte order; on
the ASCII names used throughout this development `Char` order coincides
with byte order.
-/

/-- The separator `'/'`. -/
def sep : Char := '/'

/-- `norm(path)`: trim leading and trailing separators. -/
def norm (p : List Char) : List Char :=
  ((p.dropWhile (fun c => c = sep)).reverse.dropWhile (fun c => c = sep)).reverse

/-- `first_component(path)`: the normalized path up to the first separator. -/
def firstComponent (p : List Char) : List Char :=
  (norm p).takeWhile (fun c => c ≠ sep)

/-- `dirname(path)`: everything before the last separator of the
normalized path, or empty. -/
def dirname (p : List Char) : List Char :=
  let n := norm p
  (((n.reverse.dropWhile (fun c => c ≠ sep)).drop 1)).reverse

/-- `tail(path)`: the normalized path with the first component stripped;
a fixpoint when `dirname` is empty. -/
def tail (p : List Char) : List Char :=
  let n := norm p
  if dirname n = [] then n
  else norm (n.drop (firstComponent n).length)

/-- `paths::validate`, with a recursion budget (see the module comment).
Every component must be shorter than `Name::LEN`. -/
def validateGo : Nat → List Char → Except Err Unit
  | 0, _ => .error .panicked
  | f + 1, p =>
    let first := firstComponent p
    if first = p ∧ p.length < NameLEN then .ok ()
    else if NameLEN ≤ first.length then .error .fileNameTooLong
    else validateGo f (tail p)

/-- `paths::validate(path)`. -/
def validate (p : List Char) : Except Err Unit := validateGo (p.length + 1) p

/-!
## Names, entries and tree nodes
(ffs/src/filesystem/name.rs, tree/entry.rs, tree/tree_node.rs)
-/

/-- `Name::new`: `assert!` that the name has no separator (panic
otherwise), error `FileNameTooLong` past `Name::LEN` bytes. -/
def mkName (s : List Char) : Except Err (List Char) :=
  if s.contains sep then .error .panicked
  else if NameLEN < s.length then .error .fileNameTooLong
  else .ok s

/-- `Kind` of a tree entry. -/
inductive Kind where
  | file
  | dir
  deriving Repr, DecidableEq

/-- A directory-tree `Entry { name, addr, kind }`. -/
structure Entry where
  name : List Char
  addr : Nat
  kind : Kind
  deriving Repr, DecidableEq

/-- `Entry::empty()`. -/
def Entry.empty : Entry := ⟨[], 0, .dir⟩

/-- `Entry::is_set() = addr != 0`. -/
def Entry.isSet (e : Entry) : Bool := e.addr != 0

/-- `Entry::is_dir()`. -/
def Entry.isDir (e : Entry) : Bool := e.kind == .dir

/-- `str::cmp` on names. -/
def nameCmp : List Char → List Char → Ordering
  | [], [] => .eq
  | [], _ :: _ => .lt
  | _ :: _, [] => .gt
  | a :: as, b :: bs => if a < b then .lt else if b < a then .gt else nameCmp as bs

/-- A `TreeNode`: the fixed array of `TREE_FANOUT` entries. -/
structure TreeNode where
  entries : List Entry
  deriving Repr, DecidableEq

/-- `TreeNode::new()`: thirty empty entries. -/
def TreeNode.new : TreeNode := ⟨List.replicate TreeNodeLEN Entry.empty⟩

/-- `TreeNode::new_leaf()`: identical to `new` in the source. -/
def TreeNode.newLeaf : TreeNode := TreeNode.new

/-- The `while low < high` loop of `binary_search_index`, with a
recursion budget (`high - low` shrinks every iteration, so any budget
above the entry count suffices). -/
def binarySearchGo (entries : List Entry) (nm : List Char) :
    Nat → Nat → Nat → Option Nat
  | 0, _, _ => none
  | f + 1, low, high =>
    if low < high then
      let mid := (low + high) / 2
      match nameCmp (entries.getD mid Entry.empty).name nm with
      | .lt => binarySearchGo entries nm f (mid + 1) high
      | .eq => some mid
      | .gt => binarySearchGo entries nm f low mid
    else none

/-- `TreeNode::find_index(name)`: binary search over all entries. -/
def TreeNode.findIndex (n : TreeNode) (nm : List Char) : Option Nat :=
  binarySearchGo n.entries nm (n.entries.length + 1) 0 n.entries.length

/-- `TreeNode::find(name)`. -/
def TreeNode.find (n : TreeNode) (nm : List Char) : Option Entry :=
  (n.findIndex nm).bind fun i => n.entries.get? i

/-- `find_unset`: index of the first entry with `addr == 0`. -/
def firstUnsetGo : List Entry → Option Nat
  | [] => none
  | e :: rest => if e.isSet then (firstUnsetGo rest).map (· + 1) else some 0

/-- `TreeNode::find_unset`. -/
def TreeNode.findUnset (n : TreeNode) : Option Nat := firstUnsetGo n.entries

/-- Stable insertion of an entry into a name-sorted list (the entry goes
before the first strictly greater name, after equal ones already there). -/
def insertSorted (e : Entry) : List Entry → List Entry
  | [] => [e]
  | y :: ys =>
    if nameCmp e.name y.name ≠ Ordering.gt then e :: y :: ys else y :: insertSorted e ys

/-- Stable sort by name; extensionally equal to the stable
`entries.sort_by(|a, b| a.name().as_str().cmp(b.name().as_str()))`
of the source (a stable sort's output is determined by the comparator). -/
def sortByName : List Entry → List Entry
  | [] => []
  | x :: xs => insertSorted x (sortByName xs)

/-- `TreeNode::insert(name, addr, kind)`: place the new entry in the
first unset slot, then sort all entries by name.  Returns the produced
entry (or the error) together with the resulting node; on a clean error
the node is unchanged. -/
def TreeNode.insert (n : TreeNode) (nm : List Char) (addr : Nat) (k : Kind) :
    Except Err Entry × TreeNode :=
  match firstUnsetGo n.entries with
  | none => (.error .directoryFull, n)
  | some i =>
    match mkName nm with
    | .error e => (.error e, n)
    | .ok name =>
      let value : Entry := ⟨name, addr, k⟩
      (.ok value, ⟨sortByName (n.entries.set i value)⟩)

/-!
## Typed disk state

Reads and writes of serialized structures are modelled on a per-region
typed store (the codec is injective and regions are pairwise disjoint,
see the layout theorems below); `trace` records every sector write as a
`(region, region-relative sector)` pair, in issue order.
-/

/-- The seven disk regions. -/
inductive Region where
  | meta
  | treeBitmap
  | tree
  | file
  | node
  | dataBitmap
  | data
  deriving Repr, DecidableEq

/-- Rust `Node { file_len, block_addrs }` (the inode). -/
structure NodeRec where
  fileLen : Nat
  blockAddrs : List Nat
  deriving Repr, DecidableEq

/-- `get_blocks_needed(file_len) = file_len.div_ceil(Block::LEN)`. -/
def blocksNeeded (n : NodeRec) : Nat := (n.fileLen + (BlockLEN - 1)) / BlockLEN

/-- Rust `File { name, node_addr }` (the durable file record). -/
structure FileRec where
  name : List Char
  nodeAddr : Nat
  deriving Repr, DecidableEq

/-- The typed disk: per-region content maps plus the write trace. -/
structure Disk where
  tree : Nat → TreeNode
  node : Nat → NodeRec
  fileRec : Nat → FileRec
  dataSec : Nat → List Nat
  treeBits : Nat → List Nat
  dataBits : Nat → List Nat
  trace : List (Region × Nat)

/-- A device of all-zero sectors, before `format`. -/
def Disk.empty : Disk :=
  { tree := fun _ => TreeNode.new
    node := fun _ => ⟨0, List.replicate NodeBLOCKS 0⟩
    fileRec := fun _ => ⟨[], 0⟩
    dataSec := fun _ => List.replicate BlockLEN 0
    treeBits := fun _ => List.replicate BlockLEN 0
    dataBits := fun _ => List.replicate BlockLEN 0
    trace := [] }

/-- Append one sector write to the trace. -/
def Disk.push (d : Disk) (r : Region) (i : Nat) : Disk :=
  { d with trace := d.trace ++ [(r, i)] }

/-- Bitmap-sector bytes of a bitmap region. -/
def Disk.getBits (d : Disk) (r : Region) (i : Nat) : List Nat :=
  match r with
  | .treeBitmap => d.treeBits i
  | .dataBitmap => d.dataBits i
  | _ => []

/-- Store bitmap-sector bytes into a bitmap region (and trace the write). -/
def Disk.setBits (d : Disk) (r : Region) (i : Nat) (bytes : List Nat) : Disk :=
  match r with
  | .treeBitmap =>
    { d with treeBits := fun x => if x = i then bytes else d.treeBits x,
             trace := d.trace ++ [(Region.treeBitmap, i)] }
  | .dataBitmap =>
    { d with dataBits := fun x => if x = i then bytes else d.dataBits x,
             trace := d.trace ++ [(Region.dataBitmap, i)] }
  | _ => d

/-- `TreeNode::load(device, addr)`: read the tree sector group. -/
def TreeNode.load (d : Disk) (addr : Nat) : TreeNode := d.tree addr

/-- The three consecutive TREE-region sector writes of one tree-node
store (`SERDE_BLOCK_COUNT = 3`). -/
def treeWrites (addr : Nat) : List (Region × Nat) :=
  [(Region.tree, TreeNodeBLOCKS * addr),
   (Region.tree, TreeNodeBLOCKS * addr + 1),
   (Region.tree, TreeNodeBLOCKS * addr + 2)]

/-- `TreeNode::store(device, addr)`: write the node's
`SERDE_BLOCK_COUNT = 3` consecutive sectors of the TREE region. -/
def TreeNode.store (d : Disk) (n : TreeNode) (addr : Nat) : Disk :=
  { d with tree := fun x => if x = addr then n else d.tree x,
           trace := d.trace ++ treeWrites addr }

/-!
## Allocator (src/filesystem/allocator/mod.rs)
-/

/-- Rust `Allocator { layout, last_accessed }`: `region` names the bitmap
region the layout refers to and `count` is `layout.entries_count()`. -/
structure Alloc where
  region : Region
  count : Nat
  lastAccessed : Nat
  deriving Repr, DecidableEq

/-- `layout.circular_iter(offset)`: the region-relative bitmap sector
indices starting at `offset`, wrapping around. -/
def circularIdx (count offset : Nat) : List Nat :=
  (List.range count).map fun i => (i + offset) % count

/-- The sector loop of `Allocator::allocate`: read each candidate bitmap
sector, `AllocationBitmap::deserialize` (which resets the RAM heuristic
`last_free` to 0), ask the bitmap for a slot, and on success write the
sector back.  Returns the bitmap sector index, the slot, and the disk. -/
def allocGo (r : Region) (d : Disk) : List Nat → Option (Nat × Nat × Disk)
  | [] => none
  | i :: rest =>
    match Bitmap.allocate ⟨d.getBits r i, 0⟩ with
    | some (slot, bm2) => some (i, slot, d.setBits r i bm2.inner)
    | none => allocGo r d rest

/-- `Allocator::allocate`: circular scan from `last_accessed`; on success
remember the bitmap index and return `to_addr = index * SLOTS + slot`. -/
def Alloc.allocate (a : Alloc) (d : Disk) : Except Err (Nat × Alloc × Disk) :=
  match allocGo a.region d (circularIdx a.count a.lastAccessed) with
  | some (i, slot, d2) =>
    .ok (i * BitmapSLOTS + slot, { a with lastAccessed := i }, d2)
  | none => .error .storageFull

/-- `Allocator::release(addr)`: clear the bit in the owning bitmap sector
and lower `last_accessed` if that sector is earlier. -/
def Alloc.release (a : Alloc) (d : Disk) (addr : Nat) : Alloc × Disk :=
  let bi := addr / BitmapSLOTS
  let off := addr % BitmapSLOTS
  let bm2 := Bitmap.release ⟨d.getBits a.region bi, 0⟩ off
  let d2 := d.setBits a.region bi bm2.inner
  (if bi < a.lastAccessed then { a with lastAccessed := bi } else a, d2)

/-- Release a list of addresses in order (the rollback loop of
`allocate_n` and the loop of `release_node_data`). -/
def releaseList (a : Alloc) (d : Disk) : List Nat → Alloc × Disk
  | [] => (a, d)
  | x :: xs =>
    let r := a.release d x
    releaseList r.1 r.2 xs

/-- The allocation loop of `Allocator::allocate_n`: `acc` holds the
addresses obtained so far; a failed `allocate` releases them all and
reports `StorageFull`. -/
def allocNGo (a : Alloc) (d : Disk) (acc : List Nat) : Nat → Except Err (List Nat × Alloc × Disk)
  | 0 => .ok (acc, a, d)
  | k + 1 =>
    match a.allocate d with
    | .ok (addr, a2, d2) => allocNGo a2 d2 (acc ++ [addr]) k
    | .error _ =>
      let _ := releaseList a d acc
      .error .storageFull

/-- `Allocator::allocate_n(device, addrs, n)` with `addrs.len() = bufLen`. -/
def Alloc.allocateN (a : Alloc) (d : Disk) (bufLen n : Nat) :
    Except Err (List Nat × Alloc × Disk) :=
  if bufLen < n then .error (.bufferTooSmall n bufLen)
  else allocNGo a d [] n

/-- `allocate_node_data(device, file_size)`: allocate
`file_size.div_ceil(Block::LEN)` addresses into the `[0; Node::BLOCKS]`
buffer and return the `Node`. -/
def Alloc.allocateNodeData (a : Alloc) (d : Disk) (fileSize : Nat) :
    Except Err (NodeRec × Alloc × Disk) :=
  match a.allocateN d NodeBLOCKS ((fileSize + (BlockLEN - 1)) / BlockLEN) with
  | .ok (addrs, a2, d2) =>
    .ok (⟨fileSize, addrs ++ List.replicate (NodeBLOCKS - addrs.length) 0⟩, a2, d2)
  | .error e => .error e

/-- `release_node_data(device, node)`: release each address of
`node.block_addrs()` — the full ten-slot array. -/
def Alloc.releaseNodeData (a : Alloc) (d : Disk) (n : NodeRec) : Alloc × Disk :=
  releaseList a d n.blockAddrs

/-!
## Directory tree (src/filesystem/directory/tree.rs)
-/

/-- Rust `Tree { allocator }` (the tree-sector allocator). -/
structure Tree where
  alloc : Alloc
  deriving Repr, DecidableEq

/-- The recursive `insert_file(device, allocator, file_path, addr)` with
a recursion budget (`tail` strictly shortens the path at every recursive
call, so any budget above the path length suffices; exhaustion reports
`Err.panicked`, which never arises in a successful run). -/
def insertFileGo (a : Alloc) (d : Disk) : Nat → List Char → Nat → Except Err (Entry × Alloc × Disk)
  | 0, _, _ => .error .panicked
  | f + 1, path, addr =>
    let current := TreeNode.load d addr
    if dirname path = [] then
      match current.find path with
      | some _ => .error .fileAlreadyExists
      | none =>
        let ins := current.insert path addr .file
        match ins.1 with
        | .error e => .error e
        | .ok entry => .ok (entry, a, TreeNode.store d ins.2 addr)
    else
      let nextPath := tail path
      let firstC := firstComponent path
      match current.find firstC with
      | some entry => insertFileGo a d f nextPath entry.addr
      | none =>
        match firstUnsetGo current.entries with
        | none => .error .storageFull
        | some _ =>
          match a.allocate d with
          | .error e => .error e
          | .ok (nextAddr, a2, d2) =>
            let ins := current.insert firstC nextAddr .dir
            match ins.1 with
            | .error e => .error e
            | .ok _ =>
              let entryNode :=
                if dirname (tail path) = [] then TreeNode.newLeaf else TreeNode.new
              let d3 := TreeNode.store d2 entryNode nextAddr
              let d4 := TreeNode.store d3 ins.2 addr
              insertFileGo a2 d4 f nextPath nextAddr

/-- `Tree::insert_file(device, file_path)` (descent starts at root 0). -/
def Tree.insertFile (t : Tree) (d : Disk) (path : List Char) :
    Except Err (Entry × Tree × Disk) :=
  match insertFileGo t.alloc d (path.length + 1) path 0 with
  | .ok (e, a2, d2) => .ok (e, ⟨a2⟩, d2)
  | .error e => .error e

/-- `find_and_then(device, file_path, addr, cb)` with a recursion budget
(the path shortens at every recursive call).  The callback receives the
disk, the current address, the loaded node and the entry position. -/
def findAndThenGo {R : Type}
    (cb : Disk → Nat → TreeNode → Nat → Except Err (R × Disk)) :
    Nat → Disk → List Char → Nat → Except Err (R × Disk)
  | 0, _, _, _ => .error .panicked
  | f + 1, d, path, addr =>
    let node := TreeNode.load d addr
    match node.findIndex (firstComponent path) with
    | some pos =>
      let nextPath := tail path
      if nextPath = path then cb d addr node pos
      else findAndThenGo cb f d nextPath (node.entries.getD pos Entry.empty).addr
    | none => .error .fileNotFound

/-- `Tree::get_file(device, file_path)`: the descent with the
clone-the-entry callback. -/
def Tree.getFile (d : Disk) (path : List Char) : Except Err Entry :=
  match findAndThenGo (fun d2 _ node pos => .ok (node.entries.getD pos Entry.empty, d2))
      (path.length + 1) d path 0 with
  | .ok (e, _) => .ok e
  | .error e => .error e

/-!
## Data path and controller
(src/filesystem/data_writer.rs, controller.rs, file_reader.rs)
-/

/-- The write loop of `DataWriter::write_to_device` against the typed
disk: chunk `i` goes to DATA sector `block_addrs[i]` (consuming the two
lists in lockstep is `chunks(...).enumerate()` with indexing); an
out-of-bounds index is a panic, modelled as `none`. -/
def dataWriterToDisk (d : Disk) : List Nat → List (List Nat) → Option Disk
  | _, [] => some d
  | a :: as, c :: cs =>
    let d2 := { d with dataSec := fun x => if x = a then c else d.dataSec x,
                       trace := d.trace ++ [(Region.data, a)] }
    dataWriterToDisk d2 as cs
  | [], _ :: _ => none

/-- Modelled from the spec: the controller-era `NodeWriter`
(`NodeWriter::new(file.node_addr(), &node).store(...)`) is not under
`src/`; per §4.6 step 6 it serializes the node into one sector and
writes it to `NODE.nth(addr)`. -/
def nodeStore (d : Disk) (addr : Nat) (n : NodeRec) : Disk :=
  { d with node := fun x => if x = addr then n else d.node x,
           trace := d.trace ++ [(Region.node, addr)] }

/-- Modelled from the spec: the controller-era `File::store` is not under
`src/`; per §4.6 step 7 it writes the `(name, node_addr)` record to
`FILE.nth(addr)` in one sector. -/
def fileStore (d : Disk) (f : FileRec) : Disk :=
  { d with fileRec := fun x => if x = f.nodeAddr then f else d.fileRec x,
           trace := d.trace ++ [(Region.file, f.nodeAddr)] }

/-- Modelled from the spec: the controller-era `Meta::store` writes the
meta sector (sector 0). -/
def metaStore (d : Disk) : Disk :=
  { d with trace := d.trace ++ [(Region.meta, 0)] }

/-- Rust `Controller { directory, allocator }` (the cached device is the
`Disk` argument of each call). -/
structure Ctrl where
  directory : Tree
  allocator : Alloc
  deriving Repr, DecidableEq

/-- `Controller::create(file_path, data)`: validate, check the size cap,
insert the directory entry, allocate data blocks into a node, write the
payload, write the inode, write the file record. -/
def Ctrl.create (c : Ctrl) (d : Disk) (path : List Char) (data : List Nat) :
    Except Err (Ctrl × Disk) :=
  match validate path with
  | .error e => .error e
  | .ok _ =>
    if NodeMAX_FILE_SIZE < data.length then .error .fileTooLarge
    else
      match c.directory.insertFile d path with
      | .error e => .error e
      | .ok (entry, t2, d2) =>
        let file : FileRec := ⟨entry.name, entry.addr⟩
        match c.allocator.allocateNodeData d2 data.length with
        | .error e => .error e
        | .ok (node, a2, d3) =>
          match DataWriter.new node.blockAddrs data with
          | none => .error .panicked
          | some w =>
            match dataWriterToDisk d3 w.blockAddrs (chunks BlockLEN w.data) with
            | none => .error .panicked
            | some d4 =>
              let d5 := nodeStore d4 file.nodeAddr node
              let d6 := fileStore d5 file
              .ok (⟨t2, a2⟩, d6)

/-- `Controller::open(file_path)`: validate, look the entry up, load the
node from `NODE.nth(entry.addr)` through `NodeHandle`.  The returned
reader is the pair of the (cached) device and this node. -/
def Ctrl.openF (d : Disk) (path : List Char) : Except Err NodeRec :=
  match validate path with
  | .error e => .error e
  | .ok _ =>
    match Tree.getFile d path with
    | .error e => .error e
    | .ok entry => .ok (d.node entry.addr)

/-- `Handle<Node>::erase_from(device)`: write an all-zero block to
`NODE.nth(addr)`; a zero sector deserializes to the zero node. -/
def nodeErase (d : Disk) (addr : Nat) : Disk :=
  { d with node := fun x => if x = addr then ⟨0, List.replicate NodeBLOCKS 0⟩ else d.node x,
           trace := d.trace ++ [(Region.node, addr)] }

/-- `Handle<File>::erase_from(device)`: write an all-zero block to
`FILE.nth(addr)`; a zero sector deserializes to the empty file record. -/
def fileErase (d : Disk) (addr : Nat) : Disk :=
  { d with fileRec := fun x => if x = addr then ⟨[], 0⟩ else d.fileRec x,
           trace := d.trace ++ [(Region.file, addr)] }

/-- `Tree::remove_file(device, file_path)`: the descent with the
slot-clearing callback (`*parent.get_mut(pos) = Entry::empty();
parent.store(device, addr)`). -/
def Tree.removeFile (d : Disk) (path : List Char) : Except Err (Unit × Disk) :=
  findAndThenGo (fun d2 addr node pos =>
      .ok ((), TreeNode.store d2 ⟨node.entries.set pos Entry.empty⟩ addr))
    (path.length + 1) d path 0

/-- One step of the entry loop of `prune`
(`for entry in current.iter_entries_mut().filter(|e| e.is_dir())`): the
state carries the rewritten entries so far, the dirty flag, the tree
allocator and the disk; `rec` is the recursive `prune` at the remaining
budget.  A set directory entry is pruned recursively; a child reporting
`Ok(true)` has its slot overwritten with `Entry::empty()` and marks the
parent dirty; a child error is discarded (`if let Ok(pruned) = ...` —
in the model the only child error is the fuel-exhaustion marker, see
`pruneGo`). -/
def pruneStep (rec : Alloc → Disk → Nat → Except Err (Bool × Alloc × Disk))
    (st : List Entry × Bool × Alloc × Disk) (e : Entry) :
    List Entry × Bool × Alloc × Disk :=
  if e.isSet && e.isDir then
    match rec st.2.2.1 st.2.2.2 e.addr with
    | .ok (true, a2, d2) => (st.1 ++ [Entry.empty], true, a2, d2)
    | .ok (false, a2, d2) => (st.1 ++ [e], st.2.1, a2, d2)
    | .error _ => (st.1 ++ [e], st.2.1, st.2.2.1, st.2.2.2)
  else (st.1 ++ [e], st.2.1, st.2.2.1, st.2.2.2)

/-- The recursive `prune(device, allocator, addr)` with a recursion
budget on the descent depth (in a well-formed acyclic tree the descent
visits pairwise distinct tree addresses, all below `N_TREE`, so any
budget above `N_TREE` suffices; exhaustion reports `Err.panicked`, the
nontermination marker, which never arises on such a tree).  Load the
node, run the entry loop over all entries, then: a non-root node left
without set entries is released to the tree allocator and the call
reports `true`; otherwise a dirty node is stored back and the call
reports `false`. -/
def pruneGo : Nat → Alloc → Disk → Nat → Except Err (Bool × Alloc × Disk)
  | 0, _, _, _ => .error .panicked
  | f + 1, a, d, addr =>
    let current := TreeNode.load d addr
    let st := current.entries.foldl (pruneStep (pruneGo f)) ([], false, a, d)
    let node2 : TreeNode := ⟨st.1⟩
    if addr ≠ 0 ∧ (node2.entries.filter (fun e => e.isSet)).length = 0 then
      let r := st.2.2.1.release st.2.2.2 addr
      .ok (true, r.1, r.2)
    else if st.2.1 then
      .ok (false, st.2.2.1, TreeNode.store st.2.2.2 node2 addr)
    else
      .ok (false, st.2.2.1, st.2.2.2)

/-- `Controller::delete(file_path)`: validate, look the entry up, load
the inode through `NodeHandle` (before anything is erased), erase the
NODE and FILE sectors of `entry.get_handles()`, clear the directory tree
slot, prune empty directories from the root (updating the tree's
allocator), and only then release the inode's data blocks. -/
def Ctrl.delete (c : Ctrl) (d : Disk) (path : List Char) : Except Err (Ctrl × Disk) :=
  match validate path with
  | .error e => .error e
  | .ok _ =>
    match Tree.getFile d path with
    | .error e => .error e
    | .ok entry =>
      let node := d.node entry.addr
      let d2 := nodeErase d entry.addr
      let d3 := fileErase d2 entry.addr
      match Tree.removeFile d3 path with
      | .error e => .error e
      | .ok (_, d4) =>
        match pruneGo (N_TREE + 1) c.directory.alloc d4 0 with
        | .error e => .error e
        | .ok (_, ta2, d5) =>
          let r := c.allocator.releaseNodeData d5 node
          .ok (⟨⟨ta2⟩, r.1⟩, r.2)

/-- `out[frm..frm + bytes.len()].copy_from_slice(bytes)`. -/
def setRange (out : List Nat) (frm : Nat) (bytes : List Nat) : List Nat :=
  out.take frm ++ bytes ++ out.drop (frm + bytes.length)

/-- The block loop of `FileReader::read`: iterate the first
`blocks_needed` data addresses with their index, read each DATA sector,
copy a full block — except for the final index, which copies only
`file_len % Block::LEN` bytes. -/
def fileReadGo (d : Disk) (fileLen blocksNeeded : Nat) :
    Nat → Nat → List Nat → List Nat → List Nat
  | _, _, [], out => out
  | i, frm, a :: rest, out =>
    let block := d.dataSec a
    if i = blocksNeeded - 1 then
      let remaining := fileLen % BlockLEN
      setRange out frm (block.take remaining)
    else
      fileReadGo d fileLen blocksNeeded (i + 1) (frm + BlockLEN) rest
        (setRange out frm (block.take BlockLEN))

/-- `FileReader::read(out)`: fail with `BufferTooSmall` when the buffer
is shorter than `file_len`, else run the block loop and return
`file_len` together with the resulting buffer. -/
def fileReaderRead (d : Disk) (n : NodeRec) (out : List Nat) :
    Except Err (Nat × List Nat) :=
  if out.length < n.fileLen then
    .error (.bufferTooSmall n.fileLen out.length)
  else
    .ok (n.fileLen, fileReadGo d n.fileLen (blocksNeeded n) 0 0
      (n.blockAddrs.take (blocksNeeded n)) out)

/-!
## Format / mount state
-/

/-- The tree allocator of a mounted controller
(`Allocator::new(Layout::TREE_BITMAP)`). -/
def treeAllocInit : Alloc := ⟨.treeBitmap, Layout.TREE_BITMAP.entriesCount, 0⟩

/-- The data allocator of a mounted controller
(`Allocator::new(Layout::DATA_BITMAP)`). -/
def dataAllocInit : Alloc := ⟨.dataBitmap, Layout.DATA_BITMAP.entriesCount, 0⟩

/-- `Controller::format`: store `Meta`, store an empty root tree node at
TREE address 0, and reserve tree-bitmap bit 0 through the allocator.
The trace is then cleared so that later traces contain only the
operation under scrutiny. -/
def formattedDisk : Disk :=
  let d1 := metaStore Disk.empty
  let d2 := TreeNode.store d1 TreeNode.new 0
  let d3 := match treeAllocInit.allocate d2 with
    | .ok (_, _, dx) => dx
    | .error _ => d2
  { d3 with trace := [] }

/-- A freshly mounted controller over the formatted disk. -/
def mountCtrl : Ctrl := ⟨⟨treeAllocInit⟩, dataAllocInit⟩

/-!
## Concrete runs used by the theorems
-/

/-- Create `"f"` with a 512-byte payload of `7`s on the freshly
formatted filesystem. -/
def runCreateF : Except Err (Ctrl × Disk) :=
  Ctrl.create mountCtrl formattedDisk ("f".toList) (List.replicate 512 7)

/-- The controller after `runCreateF` (the run succeeds, see below). -/
def afterCreateCtrl : Ctrl :=
  match runCreateF with
  | .ok r => r.1
  | .error _ => mountCtrl

/-- The disk after `runCreateF` (the run succeeds, see below). -/
def afterCreateDisk : Disk :=
  match runCreateF with
  | .ok r => r.2
  | .error _ => formattedDisk

/-- Open `"f"` on the disk left by `runCreateF` and read it into a
512-byte buffer of zeros. -/
def runReadF : Except Err (Nat × List Nat) :=
  runCreateF.bind fun r =>
    (Ctrl.openF r.2 ("f".toList)).bind fun node =>
      fileReaderRead r.2 node (List.replicate 512 0)

/-- Insert `"a/f1"` into the tree of the formatted filesystem. -/
def runInsertA1 : Except Err (Entry × Tree × Disk) :=
  Tree.insertFile ⟨treeAllocInit⟩ formattedDisk ("a/f1".toList)

/-- Then insert `"a/f2"`. -/
def runInsertA2 : Except Err (Entry × Tree × Disk) :=
  runInsertA1.bind fun r => Tree.insertFile r.2.1 r.2.2 ("a/f2".toList)

/-- A disk whose data bitmap has bits 0 and 5 taken: data address 5 is
owned by `c4Node` below, data address 0 by some other live file. -/
def c4Disk : Disk :=
  { Disk.empty with
      dataBits := fun i => if i = 0 then 33 :: List.replicate 511 0
                           else List.replicate 512 0 }

/-- A 512-byte file whose single data block is address 5; the other nine
slots of the address array are unused (zero). -/
def c4Node : NodeRec := ⟨512, [5, 0, 0, 0, 0, 0, 0, 0, 0, 0]⟩

/-- The ordering property asserted by claim C2 for a write trace: every
NODE-region write precedes every TREE-region write (the inode is on disk
before the directory slot is persisted). -/
def nodeBeforeTreeSlot (t : List (Region × Nat)) : Prop :=
  ∀ i < t.length, ∀ j < t.length,
    (t.getD i (Region.meta, 0)).1 = Region.node →
    (t.getD j (Region.meta, 0)).1 = Region.tree → i < j

instance (t : List (Region × Nat)) : Decidable (nodeBeforeTreeSlot t) := by
  unfold nodeBeforeTreeSlot
  infer_instance

/-- The write trace produced by `runCreateF`. -/
def createTraceF : List (Region × Nat) :=
  [(Region.tree, 0), (Region.tree, 1), (Region.tree, 2),
   (Region.dataBitmap, 0), (Region.data, 0), (Region.node, 0), (Region.file, 0)]

/-- The bitmap used to witness the C6 theorem: byte 0 full, byte 1 has
its three low bits taken, `last_free = 1`. -/
def c6Bitmap : Bitmap := ⟨255 :: 7 :: List.replicate 510 0, 1⟩

/-- A cache entry is coherent with the device: whatever sector it holds,
it holds that sector's current device content. -/
def entryOk (d : Device) (e : Option (Nat × List Nat)) : Prop :=
  ∀ s b, e = some (s, b) → d s = b

/-- Two cache entries never hold the same sector. -/
def distinctSectors (e1 e2 : Option (Nat × List Nat)) : Prop :=
  ∀ s, e1.map Prod.fst = some s → e2.map Prod.fst ≠ some s

/-- The cache invariant: every entry matches the device and sectors are
cached at most once. -/
def CacheOk (d : Device) (c : Cache) : Prop :=
  (∀ e ∈ c, entryOk d e) ∧ c.Pairwise distinctSectors

end Ffs

namespace Ffs

set_option maxRecDepth 1000000

/-!
# Theorems
-/

/-- C7 (counterexample): the regions are not contiguous in the order the
claim lists them — `TREE_BITMAP` ends at sector 2 while `DATA_BITMAP`
begins at sector 6302 (it sits between `NODE` and `DATA`). -/
theorem c7_layout_order_counterexample :
    ¬ (Layout.META.hi = Layout.TREE_BITMAP.lo ∧
       Layout.TREE_BITMAP.hi = Layout.DATA_BITMAP.lo ∧
       Layout.DATA_BITMAP.hi = Layout.TREE.lo ∧
       Layout.TREE.hi = Layout.FILE.lo ∧
       Layout.FILE.hi = Layout.NODE.lo ∧
       Layout.NODE.hi = Layout.DATA.lo) := by
  decide

/-- C7 (amended): the compile-time layout partitions the sector space
into contiguous regions in the order META, TREE_BITMAP, TREE, FILE,
NODE, DATA_BITMAP, DATA: the end of each region equals the begin of the
next. -/
theorem c7_layout_contiguity_amended :
    Layout.META.hi = Layout.TREE_BITMAP.lo ∧
    Layout.TREE_BITMAP.hi = Layout.TREE.lo ∧
    Layout.TREE.hi = Layout.FILE.lo ∧
    Layout.FILE.hi = Layout.NODE.lo ∧
    Layout.NODE.hi = Layout.DATA_BITMAP.lo ∧
    Layout.DATA_BITMAP.hi = Layout.DATA.lo := by
  decide

/-- C8 (counterexample): the sector-0 bytes written by the source's
`Meta::serialize` for the formatted filesystem differ from the byte
layout asserted by the claim (six u32 begins followed by the block size
and 484 zeros): the source writes four u32s (file, node, free, data)
followed by the block size and 492 zeros. -/
theorem c8_meta_serialize_counterexample :
    Meta.serialize Meta.new ≠ metaBytesClaimC8 := by
  decide

/-- C8 (amended): `format` writes sector 0 with exactly: four
little-endian u32 region begin addresses (file = 201, node = 1551,
free = 2901, data = 2904), a little-endian u16 block size 512, 492 zero
bytes, and the signature bytes `0x13 0x37` at offsets 510..512. -/
theorem c8_meta_serialize_amended :
    Meta.serialize Meta.new =
      le32 V0FILE.lo ++ le32 V0NODE.lo ++ le32 V0FREE.lo ++ le32 V0DATA.lo ++
        le16 512 ++ List.replicate 492 0 ++ [0x13, 0x37] ∧
    (Meta.serialize Meta.new).length = 512 ∧
    (Meta.serialize Meta.new).drop 510 = [0x13, 0x37] ∧
    (Meta.serialize Meta.new).take 18 =
      [201, 0, 0, 0, 15, 6, 0, 0, 85, 11, 0, 0, 88, 11, 0, 0, 0, 2] ∧
    ((Meta.serialize Meta.new).drop 18).take 492 = List.replicate 492 0 := by
  exact ⟨by decide, by decide, by decide, by decide, by decide⟩

/-- C1 (code bug): on a freshly formatted filesystem, after a successful
`create("f", d)` with `|d| = 512` (a nonzero multiple of 512, payload
all `7`s), `open` then `read` into a 512-byte zero buffer returns
`file_len = 512` but leaves the buffer untouched — `out[0..512]` is all
zeros, not `d`: the final-block copy uses `file_len % 512 = 0` bytes
unconditionally. -/
theorem c1_read_drops_final_block :
    runReadF = .ok (512, List.replicate 512 0) ∧
    List.replicate 512 0 ≠ List.replicate 512 7 := by
  exact ⟨by decide, by decide⟩

/-- C3 (code bug): `tree.insert_file` passes the current tree-node
address as the new File entry's `addr`.  Inserting `"a/f1"` and then
`"a/f2"` on the formatted filesystem returns two File-kind entries with
the same `addr = 1` (the tree sector of directory `"a"`), so their FILE
and NODE records coincide — the address is not a fresh per-file inode
identifier. -/
theorem c3_insert_file_addr_not_fresh :
    (runInsertA1.map fun r => (r.1.kind, r.1.addr)) = .ok (Kind.file, 1) ∧
    (runInsertA2.map fun r => (r.1.kind, r.1.addr)) = .ok (Kind.file, 1) := by
  exact ⟨by decide, by decide⟩

/-- C4 (code bug): `release_node_data` iterates the full ten-slot
`node.block_addrs()` array.  For a 512-byte node that owns only data
address 5 (`blocks_needed = 1`, used prefix `[5]`), it also releases the
unused tail zeros: data address 0, taken by another owner beforehand, is
freed (its bitmap bit flips from taken to free). -/
theorem c4_release_node_data_releases_unused_tail :
    blocksNeeded c4Node = 1 ∧
    c4Node.blockAddrs.take (blocksNeeded c4Node) = [5] ∧
    Nat.testBit ((c4Disk.dataBits 0).getD 0 0) 0 = true ∧
    Nat.testBit (((dataAllocInit.releaseNodeData c4Disk c4Node).2.dataBits 0).getD 0 0) 0
      = false ∧
    Nat.testBit (((dataAllocInit.releaseNodeData c4Disk c4Node).2.dataBits 0).getD 0 0) 5
      = false := by
  exact ⟨by decide, by decide, by decide, by decide, by decide⟩

/-- C5 (counterexample): on the freshly formatted filesystem, looking up
the empty path `""` (and `"/"`, which normalizes to it) does not return
`FileNotFound`: the binary search resolves an unset (empty-name) entry
of the root node and `get_file` returns the empty entry; `open` likewise
succeeds, returning the zero inode. -/
theorem c5_empty_path_counterexample :
    Tree.getFile formattedDisk [] = .ok Entry.empty ∧
    Tree.getFile formattedDisk ("/".toList) = .ok Entry.empty ∧
    Ctrl.openF formattedDisk [] = .ok ⟨0, List.replicate 10 0⟩ ∧
    (Except.ok Entry.empty : Except Err Entry) ≠ .error .fileNotFound := by
  exact ⟨by decide, by decide, by decide, by decide⟩

/-- C2 (counterexample): in the write trace of a successful
`create("f", d)` on the formatted filesystem, the directory tree slot is
persisted first (by `insert_file`), before the data blocks, the inode
and the file record — refuting the claimed order in which the inode
reaches the disk before the tree slot. -/
theorem c2_create_counterexample :
    (runCreateF.map fun r => r.2.trace) = .ok createTraceF ∧
    ¬ nodeBeforeTreeSlot createTraceF := by
  exact ⟨by decide, by decide⟩

/-- `nameCmp` only reports `eq` on equal names. -/
theorem nameCmp_eq (a : List Char) : ∀ b, nameCmp a b = .eq → a = b := by
  induction a with
  | nil =>
    intro b h
    cases b with
    | nil => rfl
    | cons y ys => exact absurd h (by simp [nameCmp])
  | cons x xs ih =>
    intro b h
    cases b with
    | nil => exact absurd h (by simp [nameCmp])
    | cons y ys =>
      by_cases hxy : x < y
      · simp [nameCmp, hxy] at h
      · by_cases hyx : y < x
        · simp [nameCmp, hxy, hyx] at h
        · have hx : x = y := le_antisymm (not_lt.mp hyx) (not_lt.mp hxy)
          have ht : nameCmp xs ys = .eq := by
            simpa [nameCmp, hxy, hyx] using h
          rw [hx, ih ys ht]

/-- The empty name sorts strictly before every nonempty name. -/
theorem nameCmp_nil_lt (b : List Char) (h : b ≠ []) : nameCmp [] b = .lt := by
  cases b with
  | nil => exact absurd rfl h
  | cons y ys => rfl

/-- `getD` yields a list element or the default. -/
theorem getD_mem_or {α : Type} (l : List α) (i : Nat) (d : α) :
    l.getD i d ∈ l ∨ l.getD i d = d := by
  induction l generalizing i with
  | nil => exact Or.inr rfl
  | cons x xs ih =>
    cases i with
    | zero => exact Or.inl (by simp)
    | succ n =>
      rw [List.getD_cons_succ]
      rcases ih n with h | h
      · exact Or.inl (List.mem_cons_of_mem _ h)
      · exact Or.inr h

/-- In a node all of whose entries have the empty name, every slot read
with the empty default has the empty name. -/
theorem getD_name_of_all (entries : List Entry) (i : Nat)
    (h : ∀ e ∈ entries, e.name = []) :
    (entries.getD i Entry.empty).name = [] := by
  rcases getD_mem_or entries i Entry.empty with hm | hd
  · exact h _ hm
  · rw [hd]; rfl

/-- `binary_search_index` only answers a position whose entry carries
exactly the searched name. -/
theorem bsearch_resolves (entries : List Entry) (nm : List Char) :
    ∀ f low high pos, binarySearchGo entries nm f low high = some pos →
      (entries.getD pos Entry.empty).name = nm := by
  intro f
  induction f with
  | zero => intro low high pos h; exact absurd h (by simp [binarySearchGo])
  | succ f ih =>
    intro low high pos h
    rw [binarySearchGo] at h
    by_cases hlh : low < high
    · simp only [if_pos hlh] at h
      rcases hc : nameCmp (entries.getD ((low + high) / 2) Entry.empty).name nm with _ | _ | _
      · rw [hc] at h; exact ih _ _ _ h
      · rw [hc] at h
        have hmid : (low + high) / 2 = pos := by simpa using h
        rw [← hmid]
        exact nameCmp_eq _ _ hc
      · rw [hc] at h; exact ih _ _ _ h
    · simp [if_neg hlh] at h

/-- Binary search for a nonempty name over entries that all carry the
empty name finds nothing. -/
theorem bsearch_allEmpty (entries : List Entry) (nm : List Char)
    (hall : ∀ e ∈ entries, e.name = []) (hnm : nm ≠ []) :
    ∀ f low high, binarySearchGo entries nm f low high = none := by
  intro f
  induction f with
  | zero => intro low high; rfl
  | succ f ih =>
    intro low high
    rw [binarySearchGo]
    by_cases hlh : low < high
    · have hc : nameCmp (entries.getD ((low + high) / 2) Entry.empty).name nm = .lt := by
        rw [getD_name_of_all _ _ hall]
        exact nameCmp_nil_lt nm hnm
      rw [if_pos hlh]
      simp only [hc]
      exact ih _ _
    · rw [if_neg hlh]

/-- The root tree node of the freshly formatted filesystem is empty. -/
theorem formattedRoot : formattedDisk.tree 0 = TreeNode.new := by decide

/-- C5 (amended): (i) a lookup resolves only an entry carrying exactly
the looked-up name; (ii) so on every tree node in which unset entries
carry the empty name, a lookup for a nonempty name only ever resolves a
set entry; (iii) on every disk state, every controller and every path
that passes validation, when the descent fails (`get_file` returns
`FileNotFound`), `open` and `delete` return `FileNotFound` as well;
(iv) on a freshly formatted filesystem every path with a nonempty first
normalized component yields `FileNotFound` from `get_file`, and from
`open` and `delete` whenever the path validates. -/
theorem c5_lookup_amended :
    (∀ (n : TreeNode) (nm : List Char) (pos : Nat),
        n.findIndex nm = some pos → (n.entries.getD pos Entry.empty).name = nm) ∧
    (∀ (n : TreeNode) (nm : List Char) (pos : Nat), nm ≠ [] →
        (∀ e ∈ n.entries, e.isSet = false → e.name = []) →
        n.findIndex nm = some pos → (n.entries.getD pos Entry.empty).isSet = true) ∧
    (∀ (c : Ctrl) (d : Disk) (p : List Char), validate p = .ok () →
        Tree.getFile d p = .error .fileNotFound →
        Ctrl.openF d p = .error .fileNotFound ∧
        Ctrl.delete c d p = .error .fileNotFound) ∧
    (∀ p : List Char, firstComponent p ≠ [] →
        Tree.getFile formattedDisk p = .error .fileNotFound ∧
        (validate p = .ok () →
          Ctrl.openF formattedDisk p = .error .fileNotFound ∧
          Ctrl.delete mountCtrl formattedDisk p = .error .fileNotFound)) := by
  refine ⟨?_, ?_, ?_, ?_⟩
  · intro n nm pos h
    exact bsearch_resolves n.entries nm _ _ _ _ h
  · intro n nm pos hnm hinv h
    have hname := bsearch_resolves n.entries nm _ _ _ _ h
    rcases getD_mem_or n.entries pos Entry.empty with hm | hd
    · cases hs : (n.entries.getD pos Entry.empty).isSet with
      | true => rfl
      | false => exact absurd (hname.symm.trans (hinv _ hm hs)) hnm
    · rw [hd] at hname
      exact absurd hname.symm hnm
  · intro c d p hv hg
    refine ⟨?_, ?_⟩
    · simp only [Ctrl.openF, hv, hg]
    · simp only [Ctrl.delete, hv, hg]
  · intro p hp
    have hall : ∀ e ∈ TreeNode.new.entries, e.name = [] := by
      intro e he
      rw [List.eq_of_mem_replicate he]
      rfl
    have hidx : (TreeNode.load formattedDisk 0).findIndex (firstComponent p) = none := by
      show (formattedDisk.tree 0).findIndex (firstComponent p) = none
      rw [formattedRoot]
      exact bsearch_allEmpty _ _ hall hp _ _ _
    have hg : Tree.getFile formattedDisk p = .error .fileNotFound := by
      rw [Tree.getFile, findAndThenGo, hidx]
    refine ⟨hg, fun hv => ⟨?_, ?_⟩⟩
    · simp only [Ctrl.openF, hv, hg]
    · simp only [Ctrl.delete, hv, hg]

/-- Witness for the C5 theorem at concrete inputs: a one-entry node
resolves `"x"` to the set entry named `"x"`; on the formatted
filesystem, `get_file`, `open` and `delete` all report `FileNotFound`
for `"nope"` and for `"missing/path"`. -/
theorem c5_lookup_amended_witness :
    ((TreeNode.mk [⟨['x'], 5, Kind.file⟩]).entries.getD 0 Entry.empty).name = ['x'] ∧
    ((TreeNode.mk [⟨['x'], 5, Kind.file⟩]).entries.getD 0 Entry.empty).isSet = true ∧
    (Ctrl.openF formattedDisk ("nope".toList) = .error .fileNotFound ∧
     Ctrl.delete mountCtrl formattedDisk ("nope".toList) = .error .fileNotFound) ∧
    Tree.getFile formattedDisk ("missing/path".toList) = .error .fileNotFound ∧
    (Ctrl.openF formattedDisk ("missing/path".toList) = .error .fileNotFound ∧
     Ctrl.delete mountCtrl formattedDisk ("missing/path".toList) = .error .fileNotFound) :=
  ⟨c5_lookup_amended.1 ⟨[⟨['x'], 5, Kind.file⟩]⟩ ['x'] 0 (by decide),
   c5_lookup_amended.2.1 ⟨[⟨['x'], 5, Kind.file⟩]⟩ ['x'] 0 (by decide) (by decide) (by decide),
   c5_lookup_amended.2.2.1 mountCtrl formattedDisk ("nope".toList) (by decide) (by decide),
   (c5_lookup_amended.2.2.2 ("missing/path".toList) (by decide)).1,
   (c5_lookup_amended.2.2.2 ("missing/path".toList) (by decide)).2 (by decide)⟩

/-- A byte below 255 has fewer than 8 trailing ones. -/
theorem byteTrailingLt : ∀ b < 256, b ≠ 255 → trailingOnes b < 8 := by decide

/-- The bit right after the trailing ones of a byte below 255 is zero. -/
theorem byteTrailingFree : ∀ b < 256, b ≠ 255 →
    Nat.testBit b (trailingOnes b) = false := by decide

/-- Every bit below the trailing-ones count of a byte is set. -/
theorem byteBelowTaken : ∀ b < 256, ∀ k < trailingOnes b, Nat.testBit b k = true := by
  decide

/-- A byte with at least 8 trailing ones is the full byte 255. -/
theorem byteFull : ∀ b < 256, 8 ≤ trailingOnes b → b = 255 := by decide

/-- All 8 bits of the full byte are set. -/
theorem testBit255 : ∀ k < 8, Nat.testBit 255 k = true := by decide

/-- `getD` at an in-range index is a list element. -/
theorem getD_mem {α : Type} (l : List α) (i : Nat) (d : α) (h : i < l.length) :
    l.getD i d ∈ l := by
  induction l generalizing i with
  | nil => simp at h
  | cons x xs ih =>
    cases i with
    | zero => simp
    | succ n =>
      rw [List.getD_cons_succ]
      exact List.mem_cons_of_mem _ (ih n (by simpa using h))

/-- `getD` on a dropped list reads the source at the shifted index. -/
theorem getD_drop {α : Type} (n : Nat) : ∀ (l : List α) (i : Nat) (d : α),
    (l.drop n).getD i d = l.getD (n + i) d := by
  induction n with
  | zero => intro l i d; simp
  | succ n ih =>
    intro l i d
    cases l with
    | nil => simp
    | cons x xs =>
      rw [List.drop_succ_cons, ih xs i d, Nat.succ_add, List.getD_cons_succ]

/-- Re-assembling a list around a `set` performed past a `take`/`drop`
split sets the element at the absolute index. -/
theorem take_append_set_drop {α : Type} (n : Nat) : ∀ (l : List α) (k : Nat) (v : α),
    n ≤ l.length → l.take n ++ (l.drop n).set k v = l.set (n + k) v := by
  induction n with
  | zero => intro l k v _; simp
  | succ n ih =>
    intro l k v h
    cases l with
    | nil => simp at h
    | cons x xs =>
      rw [List.take_succ_cons, List.drop_succ_cons, List.cons_append, Nat.succ_add,
        List.set_cons_succ, ih xs k v (by simpa using h)]

/-- If the scan of `Bitmap::allocate` finds nothing, every scanned byte
is full. -/
theorem allocateFrom_none (l : List Nat) : ∀ j0, allocateFrom l j0 = none →
    ∀ b ∈ l, ¬ trailingOnes b < 8 := by
  induction l with
  | nil => intro j0 _ b hb; cases hb
  | cons x xs ih =>
    intro j0 h b hb
    simp only [allocateFrom] at h
    by_cases hx : trailingOnes x < 8
    · rw [if_pos hx] at h; cases h
    · rw [if_neg hx] at h
      rcases List.mem_cons.mp hb with rfl | hb2
      · exact hx
      · cases hr : allocateFrom xs (j0 + 1) with
        | some r => rw [hr] at h; cases h
        | none => exact ih (j0 + 1) hr b hb2

/-- What a successful scan of `Bitmap::allocate` guarantees: the found
byte is the first non-full byte from the scan start, the reported bit is
its trailing-ones count, and exactly that bit is set in the result. -/
theorem allocateFrom_ok (l : List Nat) : ∀ j0 j t tl,
    allocateFrom l j0 = some (j, t, tl) →
    j0 ≤ j ∧ j - j0 < l.length ∧
    (∀ i < j - j0, ¬ trailingOnes (l.getD i 0) < 8) ∧
    t = trailingOnes (l.getD (j - j0) 0) ∧ t < 8 ∧
    tl = l.set (j - j0) ((l.getD (j - j0) 0) ||| (1 <<< t)) := by
  induction l with
  | nil => intro j0 j t tl h; simp [allocateFrom] at h
  | cons x xs ih =>
    intro j0 j t tl h
    simp only [allocateFrom] at h
    by_cases hx : trailingOnes x < 8
    · rw [if_pos hx] at h
      cases h
      refine ⟨Nat.le_refl _, by simp, ?_, by simp, hx, by simp⟩
      intro i hi
      omega
    · rw [if_neg hx] at h
      cases hr : allocateFrom xs (j0 + 1) with
      | none => rw [hr] at h; cases h
      | some r =>
        rcases r with ⟨j2, t2, tl2⟩
        rw [hr] at h
        simp only [Option.map_some'] at h
        cases h
        obtain ⟨h1, h2, h3, h4, h5, h6⟩ := ih (j0 + 1) j t tl2 hr
        have hj : j - j0 = (j - (j0 + 1)) + 1 := by omega
        refine ⟨by omega, by simp; omega, ?_, ?_, h5, ?_⟩
        · intro i hi
          cases i with
          | zero => simpa using hx
          | succ i2 =>
            rw [List.getD_cons_succ]
            exact h3 i2 (by omega)
        · rw [hj, List.getD_cons_succ]
          exact h4
        · rw [hj, List.set_cons_succ, List.getD_cons_succ, ← h6]

/-- C6 (confirmed): for a bitmap whose bytes before `last_free` are all
full and which still has a zero bit, `allocate()` returns the lowest
zero-bit position (which is `≥ last_free * 8`), flips exactly that bit,
and leaves `last_free` equal to the absolute byte index of the returned
bit — the heuristic advance is absolute. -/
theorem c6_bitmap_allocate_lowest_free (bm : Bitmap)
    (hbytes : ∀ b ∈ bm.inner, b < 256)
    (hfull : ∀ i < bm.lastFree, bm.inner.getD i 0 = 255)
    (hfree : ∃ jj, bm.lastFree ≤ jj ∧ jj < bm.inner.length ∧ bm.inner.getD jj 0 ≠ 255) :
    ∃ p bm2, bm.allocate = some (p, bm2) ∧
      8 * bm.lastFree ≤ p ∧
      bitIsFree bm.inner p ∧
      (∀ q < p, ¬ bitIsFree bm.inner q) ∧
      bm2.inner = bm.inner.set (p / 8) ((bm.inner.getD (p / 8) 0) ||| (1 <<< (p % 8))) ∧
      bm2.lastFree = p / 8 := by
  obtain ⟨jj, hjj1, hjj2, hjj3⟩ := hfree
  cases hA : allocateFrom (bm.inner.drop bm.lastFree) bm.lastFree with
  | none =>
    exfalso
    have hlt : jj - bm.lastFree < (bm.inner.drop bm.lastFree).length := by
      rw [List.length_drop]; omega
    have hmem := getD_mem (bm.inner.drop bm.lastFree) (jj - bm.lastFree) 0 hlt
    have hval : (bm.inner.drop bm.lastFree).getD (jj - bm.lastFree) 0 =
        bm.inner.getD jj 0 := by
      rw [getD_drop]
      congr 1
      omega
    have hnotlt := allocateFrom_none _ _ hA _ hmem
    have h255 := byteFull _ (hbytes _ (List.drop_subset _ _ hmem)) (not_lt.mp hnotlt)
    rw [hval] at h255
    exact hjj3 h255
  | some r =>
    rcases r with ⟨j, t, tl⟩
    obtain ⟨h1, h2, h3, h4, h5, h6⟩ := allocateFrom_ok _ _ j t tl hA
    have hjlen : j < bm.inner.length := by
      rw [List.length_drop] at h2; omega
    have hgetj : (bm.inner.drop bm.lastFree).getD (j - bm.lastFree) 0 =
        bm.inner.getD j 0 := by
      rw [getD_drop]
      congr 1
      omega
    rw [hgetj] at h4 h6
    have hbJlt : bm.inner.getD j 0 < 256 := hbytes _ (getD_mem _ _ _ hjlen)
    have hbJne : bm.inner.getD j 0 ≠ 255 := by
      intro hcontra
      rw [hcontra] at h4
      have : trailingOnes 255 = 8 := by decide
      omega
    have hdiv : (8 * j + t) / 8 = j := by omega
    have hmod : (8 * j + t) % 8 = t := by omega
    refine ⟨8 * j + t, ⟨bm.inner.take bm.lastFree ++ tl, j⟩, ?_, by omega, ?_, ?_, ?_, ?_⟩
    · rw [Bitmap.allocate, hA]
    · exact ⟨by rw [hdiv]; exact hjlen, by rw [hdiv, hmod, h4]; exact byteTrailingFree _ hbJlt hbJne⟩
    · intro q hq hfreeq
      obtain ⟨hq1, hq2⟩ := hfreeq
      have hq8 : q / 8 ≤ j := by omega
      have hqm : q % 8 < 8 := Nat.mod_lt _ (by omega)
      rcases Nat.lt_or_ge (q / 8) bm.lastFree with hcase | hcase
      · rw [hfull _ hcase] at hq2
        rw [testBit255 _ hqm] at hq2
        cases hq2
      · rcases Nat.lt_or_ge (q / 8) j with hcase2 | hcase2
        · have hi : q / 8 - bm.lastFree < j - bm.lastFree := by omega
          have hbyte := h3 _ hi
          rw [getD_drop] at hbyte
          have hrw : bm.lastFree + (q / 8 - bm.lastFree) = q / 8 := by omega
          rw [hrw] at hbyte
          have h255 := byteFull _ (hbytes _ (getD_mem _ _ _ (by omega))) (not_lt.mp hbyte)
          rw [h255, testBit255 _ hqm] at hq2
          cases hq2
        · have hqj : q / 8 = j := by omega
          have hqt : q % 8 < t := by
            have := Nat.div_add_mod q 8
            omega
          rw [hqj] at hq2
          rw [byteBelowTaken _ hbJlt _ (h4 ▸ hqt)] at hq2
          cases hq2
    · have hle : bm.lastFree ≤ bm.inner.length := le_trans h1 (le_of_lt hjlen)
      rw [hdiv, hmod, h6]
      rw [take_append_set_drop bm.lastFree bm.inner (j - bm.lastFree) _ hle]
      rw [Nat.add_sub_cancel' h1]
    · rw [hdiv]

/-- Witness for the C6 theorem at a concrete bitmap: byte 0 full, byte 1
equal to 7, `last_free = 1`; allocation returns bit 11. -/
theorem c6_bitmap_allocate_lowest_free_witness :
    (∀ b ∈ c6Bitmap.inner, b < 256) ∧
    (∃ p bm2, c6Bitmap.allocate = some (p, bm2) ∧
      8 * c6Bitmap.lastFree ≤ p ∧
      bitIsFree c6Bitmap.inner p ∧
      (∀ q < p, ¬ bitIsFree c6Bitmap.inner q) ∧
      bm2.inner = c6Bitmap.inner.set (p / 8) ((c6Bitmap.inner.getD (p / 8) 0) ||| (1 <<< (p % 8))) ∧
      bm2.lastFree = p / 8) :=
  ⟨by decide,
   c6_bitmap_allocate_lowest_free c6Bitmap (by decide) (by decide)
     ⟨1, by decide, by decide, by decide⟩⟩

/-- A byte list of length `L` yields at most `ceil(L / n)` chunks. -/
theorem chunksGo_length_le (n : Nat) (hn : 0 < n) : ∀ f l, List.length l ≤ f →
    (chunksGo n f l).length ≤ (l.length + (n - 1)) / n := by
  intro f
  induction f with
  | zero =>
    intro l hl
    have : l = [] := List.eq_nil_of_length_eq_zero (by omega)
    subst this
    simp [chunksGo]
  | succ f ih =>
    intro l hl
    cases l with
    | nil => simp [chunksGo]
    | cons x xs =>
      have hstep : chunksGo n (f + 1) (x :: xs) =
          (x :: xs).take n :: chunksGo n f ((x :: xs).drop n) := rfl
      rw [hstep]
      have hdl : ((x :: xs).drop n).length = (x :: xs).length - n := List.length_drop _ _
      have hrec := ih ((x :: xs).drop n) (by rw [hdl]; omega)
      rw [hdl] at hrec
      have hL : 1 ≤ (x :: xs).length := by simp
      have key : ((x :: xs).length + (n - 1)) / n =
          (((x :: xs).length - n) + (n - 1)) / n + 1 := by
        rcases Nat.lt_or_ge (x :: xs).length n with hc | hc
        · have h0 : (x :: xs).length - n = 0 := by omega
          have hone : ((x :: xs).length + (n - 1)) / n = 1 := by
            apply Nat.div_eq_of_lt_le
            · omega
            · omega
          rw [h0, hone, Nat.zero_add, Nat.div_eq_of_lt (show n - 1 < n by omega)]
        · have harg : (x :: xs).length + (n - 1) = (((x :: xs).length - n) + (n - 1)) + n := by
            omega
          rw [harg, Nat.add_div_right _ hn]
      rw [key]
      simpa using hrec

/-- The chunk loop of `write_to_device` indexes within bounds whenever
there are at least as many addresses as chunks. -/
theorem dataWriterGo_ok (addrs : List Nat) : ∀ (cs : List (List Nat)) (i : Nat),
    i + cs.length ≤ addrs.length → ∃ r, dataWriterGo addrs i cs = some r := by
  intro cs
  induction cs with
  | nil => intro i _; exact ⟨[], rfl⟩
  | cons c cs ih =>
    intro i hi
    cases hx : addrs.get? i with
    | none =>
      have := List.get?_eq_none.mp hx
      simp at hi
      omega
    | some a =>
      obtain ⟨r, hr⟩ := ih (i + 1) (by simp at hi ⊢; omega)
      refine ⟨(Layout.DATA.nth a, c) :: r, ?_⟩
      rw [dataWriterGo, hx, hr]
      rfl

/-- C10 (counterexample): with both `block_addrs` and `data` empty the
documented precondition `block_addrs.len() >= ceil(|data|/512)` holds,
yet the constructor's assertion `0 * 512 != ceil(0/512)` is false and
`DataWriter::new` panics (modelled as `none`). -/
theorem c10_data_writer_empty_counterexample :
    ((([] : List Nat).length + (BlockLEN - 1)) / BlockLEN ≤ ([] : List Nat).length) ∧
    DataWriter.new [] [] = none := by
  exact ⟨by decide, by decide⟩

/-- C10 (amended): for every nonempty `block_addrs` and every `data`
with `block_addrs.len() ≥ ceil(|data|/512)`, `DataWriter::new` does not
trip its (inverted) assertion and `write_to_device` indexes only within
bounds; with both slices empty the assertion fires instead (see the
counterexample), so nonemptiness is required. -/
theorem c10_data_writer_precondition_amended (addrs data : List Nat)
    (hpre : (data.length + (BlockLEN - 1)) / BlockLEN ≤ addrs.length)
    (hne : addrs ≠ []) :
    ∃ w, DataWriter.new addrs data = some w ∧ ∃ tr, w.writeToDevice = some tr := by
  have hlen : 0 < addrs.length := List.length_pos.mpr hne
  have hassert : addrs.length * BlockLEN ≠ (data.length + (BlockLEN - 1)) / BlockLEN := by
    simp only [BlockLEN] at hpre ⊢
    omega
  refine ⟨⟨addrs, data⟩, ?_, ?_⟩
  · rw [DataWriter.new, if_pos hassert]
  · have hcount : (chunks BlockLEN data).length ≤ addrs.length := by
      refine le_trans ?_ hpre
      exact chunksGo_length_le BlockLEN (by decide) data.length data (le_refl _)
    obtain ⟨r, hr⟩ := dataWriterGo_ok addrs (chunks BlockLEN data) 0 (by omega)
    exact ⟨r, hr⟩

/-- Witness for the C10 theorem at a concrete input: one address, one
data byte. -/
theorem c10_data_writer_precondition_amended_witness :
    ((([7] : List Nat).length + (BlockLEN - 1)) / BlockLEN ≤ ([0] : List Nat).length) ∧
    (([0] : List Nat) ≠ []) ∧
    (∃ w, DataWriter.new [0] [7] = some w ∧ ∃ tr, w.writeToDevice = some tr) :=
  ⟨by decide, by decide,
   c10_data_writer_precondition_amended [0] [7] (by decide) (by decide)⟩

/-- Writing a bitmap sector appends exactly one write to the trace. -/
theorem setBits_trace (d : Disk) (r : Region) (i : Nat) (bytes : List Nat)
    (hr : r = Region.treeBitmap ∨ r = Region.dataBitmap) :
    (d.setBits r i bytes).trace = d.trace ++ [(r, i)] := by
  rcases hr with rfl | rfl <;> rfl

/-- Storing a tree node appends its three sector writes to the trace. -/
theorem treeStore_trace (d : Disk) (n : TreeNode) (addr : Nat) :
    (TreeNode.store d n addr).trace = d.trace ++ treeWrites addr := rfl

/-- Every write of a tree-node store is a TREE-region write. -/
theorem treeWrites_region (addr : Nat) : ∀ w ∈ treeWrites addr, w.1 = Region.tree := by
  intro w hw
  simp only [treeWrites, List.mem_cons] at hw
  rcases hw with rfl | rfl | rfl | hv
  · rfl
  · rfl
  · rfl
  · cases hv

/-- The sector loop of `Allocator::allocate` writes exactly one sector
of the allocator's bitmap region. -/
theorem allocGo_trace (r : Region) (d : Disk)
    (hr : r = Region.treeBitmap ∨ r = Region.dataBitmap) :
    ∀ (idxs : List Nat) (i slot : Nat) (d2 : Disk),
      allocGo r d idxs = some (i, slot, d2) →
      d2.trace = d.trace ++ [(r, i)] := by
  intro idxs
  induction idxs with
  | nil => intro i slot d2 h; cases h
  | cons i0 rest ih =>
    intro i slot d2 h
    simp only [allocGo] at h
    cases hb : Bitmap.allocate ⟨d.getBits r i0, 0⟩ with
    | some res =>
      rw [hb] at h
      cases h
      exact setBits_trace d r i0 res.2.inner hr
    | none =>
      rw [hb] at h
      exact ih i slot d2 h

/-- `Allocator::allocate` appends one bitmap-region write and keeps the
allocator's region. -/
theorem allocate_trace (a : Alloc) (d : Disk) (addr : Nat) (a2 : Alloc) (d2 : Disk)
    (hr : a.region = Region.treeBitmap ∨ a.region = Region.dataBitmap)
    (h : a.allocate d = .ok (addr, a2, d2)) :
    (∃ i, d2.trace = d.trace ++ [(a.region, i)]) ∧ a2.region = a.region := by
  simp only [Alloc.allocate] at h
  cases hg : allocGo a.region d (circularIdx a.count a.lastAccessed) with
  | some res =>
    rcases res with ⟨i, slot, dx⟩
    rw [hg] at h
    cases h
    exact ⟨⟨i, allocGo_trace a.region d hr _ i slot _ hg⟩, rfl⟩
  | none => rw [hg] at h; cases h

/-- The loop of `allocate_n` appends only bitmap-region writes on the
success path. -/
theorem allocNGo_trace (k : Nat) : ∀ (a : Alloc) (d : Disk) (acc addrs : List Nat)
    (a2 : Alloc) (d2 : Disk),
    (a.region = Region.treeBitmap ∨ a.region = Region.dataBitmap) →
    allocNGo a d acc k = .ok (addrs, a2, d2) →
    (∃ t, d2.trace = d.trace ++ t ∧ ∀ w ∈ t, w.1 = a.region) ∧
    a2.region = a.region := by
  induction k with
  | zero =>
    intro a d acc addrs a2 d2 _ h
    cases h
    exact ⟨⟨[], (List.append_nil _).symm, by intro w hw; cases hw⟩, rfl⟩
  | succ k ih =>
    intro a d acc addrs a2 d2 hr h
    simp only [allocNGo] at h
    cases ha : a.allocate d with
    | ok res =>
      rcases res with ⟨addr, aM, dM⟩
      rw [ha] at h
      obtain ⟨⟨i, hM⟩, hMr⟩ := allocate_trace a d addr aM dM hr ha
      obtain ⟨⟨t2, h2, hall2⟩, hreg⟩ :=
        ih aM dM (acc ++ [addr]) addrs a2 d2 (by rw [hMr]; exact hr) h
      refine ⟨⟨(a.region, i) :: t2, ?_, ?_⟩, by rw [hreg, hMr]⟩
      · rw [h2, hM, List.append_assoc]
        rfl
      · intro w hw
        rcases List.mem_cons.mp hw with rfl | hw2
        · rfl
        · rw [hall2 w hw2, hMr]
    | error e => rw [ha] at h; cases h

/-- `allocate_node_data` appends only bitmap-region writes and keeps the
allocator's region. -/
theorem allocateNodeData_trace (a : Alloc) (d : Disk) (fs : Nat) (node : NodeRec)
    (a2 : Alloc) (d2 : Disk)
    (hr : a.region = Region.treeBitmap ∨ a.region = Region.dataBitmap)
    (h : a.allocateNodeData d fs = .ok (node, a2, d2)) :
    (∃ t, d2.trace = d.trace ++ t ∧ ∀ w ∈ t, w.1 = a.region) ∧
    a2.region = a.region := by
  simp only [Alloc.allocateNodeData, Alloc.allocateN] at h
  by_cases hbuf : NodeBLOCKS < (fs + (BlockLEN - 1)) / BlockLEN
  · rw [if_pos hbuf] at h; cases h
  · rw [if_neg hbuf] at h
    cases hg : allocNGo a d [] ((fs + (BlockLEN - 1)) / BlockLEN) with
    | ok res =>
      rcases res with ⟨addrs, aX, dX⟩
      rw [hg] at h
      cases h
      exact allocNGo_trace _ a d [] addrs _ _ hr hg
    | error e => rw [hg] at h; cases h

/-- The payload loop writes only DATA-region sectors. -/
theorem dataWriterToDisk_trace : ∀ (cs : List (List Nat)) (as : List Nat)
    (d d2 : Disk), dataWriterToDisk d as cs = some d2 →
    ∃ t, d2.trace = d.trace ++ t ∧ ∀ w ∈ t, w.1 = Region.data := by
  intro cs
  induction cs with
  | nil =>
    intro as d d2 h
    cases as with
    | nil =>
      cases h
      exact ⟨[], (List.append_nil _).symm, by intro w hw; cases hw⟩
    | cons a as2 =>
      cases h
      exact ⟨[], (List.append_nil _).symm, by intro w hw; cases hw⟩
  | cons c cs ih =>
    intro as d d2 h
    cases as with
    | nil => cases h
    | cons a as2 =>
      simp only [dataWriterToDisk] at h
      obtain ⟨t2, h2, hall2⟩ := ih as2 _ d2 h
      refine ⟨(Region.data, a) :: t2, ?_, ?_⟩
      · rw [h2]
        simp
      · intro w hw
        rcases List.mem_cons.mp hw with rfl | hw2
        · rfl
        · exact hall2 w hw2

/-- The recursive `insert_file` writes only TREE sectors and sectors of
the tree allocator's bitmap region, and keeps the allocator's region. -/
theorem insertFileGo_trace (f : Nat) : ∀ (a : Alloc) (d : Disk) (p : List Char)
    (addr : Nat) (e : Entry) (a2 : Alloc) (d2 : Disk),
    (a.region = Region.treeBitmap ∨ a.region = Region.dataBitmap) →
    insertFileGo a d f p addr = .ok (e, a2, d2) →
    (∃ t, d2.trace = d.trace ++ t ∧
      ∀ w ∈ t, w.1 = Region.tree ∨ w.1 = a.region) ∧
    a2.region = a.region := by
  induction f with
  | zero => intro a d p addr e a2 d2 _ h; cases h
  | succ f ih =>
    intro a d p addr e a2 d2 hr h
    simp only [insertFileGo] at h
    split at h
    · -- single-component branch
      split at h
      next entry hfind => cases h
      next hfind =>
        split at h
        next e2 hins => cases h
        next entry hins =>
          cases h
          refine ⟨⟨treeWrites addr, treeStore_trace d _ addr, ?_⟩, rfl⟩
          intro w hw
          exact Or.inl (treeWrites_region addr w hw)
    · -- descend or create a subdirectory
      split at h
      next entry hfind => exact ih a d (tail p) entry.addr e a2 d2 hr h
      next hfind =>
        split at h
        next hunset => cases h
        next u hunset =>
          split at h
          next e2 hal => cases h
          next nextAddr aM dM hal =>
            split at h
            next e2 hins => cases h
            next entry2 hins =>
              obtain ⟨⟨i, hM⟩, hMr⟩ := allocate_trace a d nextAddr aM dM hr hal
              obtain ⟨⟨t2, h2, hall2⟩, hreg⟩ :=
                ih aM _ (tail p) nextAddr e a2 d2 (by rw [hMr]; exact hr) h
              rw [treeStore_trace, treeStore_trace, hM] at h2
              refine ⟨⟨(a.region, i) :: (treeWrites nextAddr ++ treeWrites addr ++ t2),
                ?_, ?_⟩, by rw [hreg, hMr]⟩
              · rw [h2]
                simp
              · intro w hw
                simp only [List.mem_cons, List.mem_append] at hw
                rcases hw with rfl | (hw1 | hw2) | hw3
                · exact Or.inr rfl
                · exact Or.inl (treeWrites_region nextAddr w hw1)
                · exact Or.inl (treeWrites_region addr w hw2)
                · rcases hall2 w hw3 with ht | ha2
                  · exact Or.inl ht
                  · rw [hMr] at ha2
                    exact Or.inr ha2

/-- `Tree::insert_file` appends only TREE and tree-bitmap-region
writes to the trace. -/
theorem treeInsertFile_trace (t : Tree) (d : Disk) (p : List Char) (entry : Entry)
    (t2 : Tree) (d2 : Disk)
    (hr : t.alloc.region = Region.treeBitmap ∨ t.alloc.region = Region.dataBitmap)
    (h : t.insertFile d p = .ok (entry, t2, d2)) :
    ∃ tt, d2.trace = d.trace ++ tt ∧
      ∀ w ∈ tt, w.1 = Region.tree ∨ w.1 = t.alloc.region := by
  simp only [Tree.insertFile] at h
  split at h
  next e0 a0 dx hig =>
    cases h
    exact (insertFileGo_trace (p.length + 1) t.alloc d p 0 _ _ _ hr hig).1
  next e2 hig => cases h

/-- C2 (amended): within a single successful `create`, writes occur in
the order: directory tree writes first (TREE and TREE_BITMAP sectors
persisted by `insert_file`, including the slot naming the file), then
DATA_BITMAP sectors (allocation), then DATA sectors (payload), then the
inode (NODE sector), then the file record (FILE sector) last.  In
particular the directory slot is persisted before the inode. -/
theorem c2_create_write_order_amended (c : Ctrl) (d : Disk) (p : List Char)
    (data : List Nat) (c2 : Ctrl) (d2 : Disk)
    (hTree : c.directory.alloc.region = Region.treeBitmap)
    (hData : c.allocator.region = Region.dataBitmap)
    (h : Ctrl.create c d p data = .ok (c2, d2)) :
    ∃ t1 t2 t3 na fa,
      d2.trace = d.trace ++ t1 ++ t2 ++ t3 ++ [(Region.node, na), (Region.file, fa)] ∧
      (∀ w ∈ t1, w.1 = Region.tree ∨ w.1 = Region.treeBitmap) ∧
      (∀ w ∈ t2, w.1 = Region.dataBitmap) ∧
      (∀ w ∈ t3, w.1 = Region.data) := by
  simp only [Ctrl.create] at h
  split at h
  next e2 hv => cases h
  next u hv =>
    split at h
    next hsz => cases h
    next hsz =>
      split at h
      next e2 hins => cases h
      next entry tr2 dI hins =>
        obtain ⟨t1, ht1, hall1⟩ :=
          treeInsertFile_trace c.directory d p entry tr2 dI (Or.inl hTree) hins
        split at h
        next e2 hand => cases h
        next node aD dN hand =>
          obtain ⟨⟨t2, ht2, hall2⟩, _⟩ :=
            allocateNodeData_trace c.allocator dI data.length node aD dN
              (Or.inr hData) hand
          split at h
          next hdw => cases h
          next w hdw =>
            split at h
            next hwd => cases h
            next d4 hwd =>
              obtain ⟨t3, ht3, hall3⟩ :=
                dataWriterToDisk_trace (chunks BlockLEN w.data) w.blockAddrs dN d4 hwd
              cases h
              refine ⟨t1, t2, t3, entry.addr, entry.addr, ?_, ?_, ?_, hall3⟩
              · have hns : (fileStore (nodeStore d4 entry.addr node)
                    ⟨entry.name, entry.addr⟩).trace =
                    d4.trace ++ [(Region.node, entry.addr), (Region.file, entry.addr)] := by
                  simp [fileStore, nodeStore]
                rw [hns, ht3, ht2, ht1]
              · intro w1 hw1
                rcases hall1 w1 hw1 with ht | hb
                · exact Or.inl ht
                · rw [hTree] at hb
                  exact Or.inr hb
              · intro w2 hw2
                rw [hall2 w2 hw2, hData]

/-- Witness for the C2 theorem: the concrete successful
`create("f", [7; 512])` on the formatted filesystem. -/
theorem c2_create_write_order_amended_witness :
    (Ctrl.create mountCtrl formattedDisk ("f".toList) (List.replicate 512 7) =
      .ok (afterCreateCtrl, afterCreateDisk)) ∧
    (∃ t1 t2 t3 na fa,
      afterCreateDisk.trace = formattedDisk.trace ++ t1 ++ t2 ++ t3 ++
        [(Region.node, na), (Region.file, fa)] ∧
      (∀ w ∈ t1, w.1 = Region.tree ∨ w.1 = Region.treeBitmap) ∧
      (∀ w ∈ t2, w.1 = Region.dataBitmap) ∧
      (∀ w ∈ t3, w.1 = Region.data)) :=
  ⟨rfl,
   c2_create_write_order_amended mountCtrl formattedDisk ("f".toList)
     (List.replicate 512 7) afterCreateCtrl afterCreateDisk rfl rfl rfl⟩

/-- `distinctSectors` is symmetric (needed to carry `Pairwise` across
permutations). -/
theorem distinctSectors_symm : ∀ {e1 e2 : Option (Nat × List Nat)},
    distinctSectors e1 e2 → distinctSectors e2 e1 := by
  intro e1 e2 h s h2 hcon
  exact h s hcon h2

/-- What a successful cache-position search means. -/
theorem cachePosGo_some (s : Nat) : ∀ (l : List (Option (Nat × List Nat))) (p : Nat),
    cachePosGo s l = some p →
    p < l.length ∧ (l.getD p none).map Prod.fst = some s := by
  intro l
  induction l with
  | nil => intro p h; cases h
  | cons e rest ih =>
    intro p h
    simp only [cachePosGo] at h
    by_cases he : e.map Prod.fst = some s
    · rw [if_pos he] at h
      cases h
      exact ⟨Nat.succ_pos _, he⟩
    · rw [if_neg he] at h
      cases hr : cachePosGo s rest with
      | none => rw [hr] at h; cases h
      | some p0 =>
        rw [hr] at h
        simp only [Option.map_some'] at h
        cases h
        obtain ⟨h1, h2⟩ := ih p0 hr
        exact ⟨Nat.succ_lt_succ h1, by rw [List.getD_cons_succ]; exact h2⟩

/-- A failed cache-position search means the sector is not cached. -/
theorem cachePosGo_none (s : Nat) : ∀ (l : List (Option (Nat × List Nat))),
    cachePosGo s l = none → ∀ e ∈ l, e.map Prod.fst ≠ some s := by
  intro l
  induction l with
  | nil => intro _ e he; cases he
  | cons e0 rest ih =>
    intro h e he
    simp only [cachePosGo] at h
    by_cases he0 : e0.map Prod.fst = some s
    · rw [if_pos he0] at h; cases h
    · rw [if_neg he0] at h
      rcases List.mem_cons.mp he with rfl | he2
      · exact he0
      · cases hr : cachePosGo s rest with
        | none => exact ih hr e he2
        | some p0 => rw [hr] at h; cases h

/-- Moving an element to the front of a `set` is a permutation. -/
theorem cons_set_perm {α : Type} : ∀ (xs : List α) (p : Nat) (x b : α),
    xs.get? p = some b → (b :: xs.set p x).Perm (x :: xs) := by
  intro xs
  induction xs with
  | nil => intro p x b h; cases h
  | cons y ys ih =>
    intro p x b h
    cases p with
    | zero =>
      cases h
      exact List.Perm.swap x y ys
    | succ p2 =>
      rw [List.get?_cons_succ] at h
      rw [List.set_cons_succ]
      exact ((List.Perm.swap y b _).trans
        ((ih p2 x b h).cons y)).trans (List.Perm.swap x y ys)

/-- `swap(0, p)` permutes the cache array. -/
theorem swap_zero_perm {α : Type} (l : List α) (p : Nat) (hp : p < l.length) :
    (listSwap l 0 p).Perm l := by
  cases l with
  | nil => simp at hp
  | cons x xs =>
    cases p with
    | zero => simp [listSwap]
    | succ p2 =>
      cases hb : xs.get? p2 with
      | none =>
        rw [List.get?_eq_none] at hb
        simp at hp
        omega
      | some b =>
        have hb2 : xs[p2]? = some b := by
          rw [← List.get?_eq_getElem?]
          exact hb
        have hred : listSwap (x :: xs) 0 (p2 + 1) = b :: xs.set p2 x := by
          simp [listSwap, hb2]
        rw [hred]
        exact cons_set_perm xs p2 x b hb

/-- After `swap(0, p)` the front entry is the one previously at `p`. -/
theorem swap_zero_getD {α : Type} (l : List α) (p : Nat) (d : α) (hp : p < l.length) :
    (listSwap l 0 p).getD 0 d = l.getD p d := by
  cases l with
  | nil => simp at hp
  | cons x xs =>
    cases p with
    | zero => simp [listSwap]
    | succ p2 =>
      cases hb : xs.get? p2 with
      | none =>
        rw [List.get?_eq_none] at hb
        simp at hp
        omega
      | some b =>
        have hb2 : xs[p2]? = some b := by
          rw [← List.get?_eq_getElem?]
          exact hb
        have hred : listSwap (x :: xs) 0 (p2 + 1) = b :: xs.set p2 x := by
          simp [listSwap, hb2]
        have hgb : xs.getD p2 d = b := by
          simp [List.getD_eq_getElem?_getD, hb2]
        rw [hred, List.getD_cons_zero, List.getD_cons_succ, hgb]

/-- The invariant survives any permutation of the cache entries. -/
theorem cacheOk_perm (d : Device) {c c2 : Cache} (hperm : c2.Perm c)
    (hok : CacheOk d c) : CacheOk d c2 := by
  refine ⟨fun e he => hok.1 e (hperm.subset he), ?_⟩
  exact (List.Perm.pairwise_iff (fun h => distinctSectors_symm h) hperm).mpr hok.2

/-- A cache hit returns the device content of the sector and permutes
the cache. -/
theorem cacheGet_hit (d : Device) (c : Cache) (s : Nat) (b : List Nat) (c2 : Cache)
    (hok : CacheOk d c) (h : cacheGet c s = (some b, c2)) :
    b = d s ∧ c2.Perm c := by
  cases hpos : cachePos c s with
  | none =>
    have hval : cacheGet c s = (none, c) := by simp only [cacheGet, hpos]
    rw [hval] at h
    cases h
  | some pos =>
    obtain ⟨hlt, hfst⟩ := cachePosGo_some s c pos hpos
    have hperm : (listSwap c 0 pos).Perm c := swap_zero_perm c pos hlt
    have hget0 : (listSwap c 0 pos).getD 0 none = c.getD pos none :=
      swap_zero_getD c pos none hlt
    have hval : cacheGet c s = ((c.getD pos none).map Prod.snd, listSwap c 0 pos) := by
      simp only [cacheGet, hpos, hget0]
    rw [hval] at h
    cases hce : c.getD pos none with
    | none => rw [hce] at hfst; cases hfst
    | some pr =>
      rcases pr with ⟨s0, b0⟩
      rw [hce] at hfst h
      simp only [Option.map_some'] at hfst h
      cases h
      cases hfst
      have hmem : c.getD pos none ∈ c := getD_mem c pos none hlt
      rw [hce] at hmem
      exact ⟨(hok.1 _ hmem _ _ rfl).symm, hperm⟩

/-- A cache miss leaves the cache unchanged and means the sector is not
cached. -/
theorem cacheGet_miss (c : Cache) (s : Nat) (c2 : Cache)
    (h : cacheGet c s = (none, c2)) :
    c2 = c ∧ ∀ e ∈ c, e.map Prod.fst ≠ some s := by
  cases hpos : cachePos c s with
  | none =>
    have hval : cacheGet c s = (none, c) := by simp only [cacheGet, hpos]
    rw [hval] at h
    cases h
    exact ⟨rfl, cachePosGo_none s c hpos⟩
  | some pos =>
    exfalso
    obtain ⟨hlt, hfst⟩ := cachePosGo_some s c pos hpos
    have hget0 : (listSwap c 0 pos).getD 0 none = c.getD pos none :=
      swap_zero_getD c pos none hlt
    have hval : cacheGet c s = ((c.getD pos none).map Prod.snd, listSwap c 0 pos) := by
      simp only [cacheGet, hpos, hget0]
    rw [hval] at h
    cases hce : c.getD pos none with
    | none => rw [hce] at hfst; cases hfst
    | some pr =>
      rw [hce] at h
      simp only [Option.map_some'] at h
      have hfalse := congrArg Prod.fst h
      simp at hfalse

/-- Inserting a block for a sector that is not yet cached preserves the
invariant. -/
theorem cacheInsert_ok (d : Device) (c : Cache) (s : Nat)
    (hok : CacheOk d c) (hnew : ∀ e ∈ c, e.map Prod.fst ≠ some s) :
    CacheOk d (cacheInsert c s (d s)) := by
  cases hlast : c.getLast? with
  | none =>
    have hnil : c = [] := List.getLast?_eq_none_iff.mp hlast
    subst hnil
    have hred : cacheInsert [] s (d s) = [] := by simp [cacheInsert]
    rw [hred]
    constructor
    · intro e he
      cases he
    · exact List.Pairwise.nil
  | some last =>
    have hda : c.dropLast ++ [last] = c :=
      List.dropLast_append_getLast? last (Option.mem_def.mpr hlast)
    have hred : cacheInsert c s (d s) = some (s, d s) :: c.dropLast := by
      simp only [cacheInsert, hlast, List.set_cons_zero]
    rw [hred]
    have hperm : (last :: c.dropLast).Perm c := by
      conv_rhs => rw [← hda]
      exact (List.perm_append_singleton _ _).symm
    have hpair : (last :: c.dropLast).Pairwise distinctSectors :=
      (List.Perm.pairwise_iff (fun h => distinctSectors_symm h) hperm).mpr hok.2
    constructor
    · intro e he s2 b2 hsb
      rcases List.mem_cons.mp he with rfl | he2
      · cases hsb
        rfl
      · exact hok.1 e ((List.dropLast_sublist c).subset he2) s2 b2 hsb
    · refine List.Pairwise.cons ?_ ((List.pairwise_cons.mp hpair).2)
      intro e he s2 hmap
      simp only [Option.map_some'] at hmap
      cases hmap
      exact hnew e ((List.dropLast_sublist c).subset he)

/-- `BlockCache::read_block` returns the device content and preserves
the invariant. -/
theorem cacheReadBlock_ok (d : Device) (c : Cache) (s : Nat) (hok : CacheOk d c) :
    (cacheReadBlock d c s).1 = d s ∧ CacheOk d (cacheReadBlock d c s).2 := by
  rcases hcg : cacheGet c s with ⟨ob, cg⟩
  cases ob with
  | some b =>
    obtain ⟨hb, hperm⟩ := cacheGet_hit d c s b cg hok hcg
    have hred : cacheReadBlock d c s = (b, cg) := by
      simp only [cacheReadBlock, hcg]
    rw [hred]
    exact ⟨hb, cacheOk_perm d hperm hok⟩
  | none =>
    obtain ⟨hceq, hnone⟩ := cacheGet_miss c s cg hcg
    have hred : cacheReadBlock d c s = (d s, cacheInsert c s (d s)) := by
      simp only [cacheReadBlock, hcg]
    rw [hred]
    exact ⟨rfl, cacheInsert_ok d c s hok hnone⟩

/-- `BlockCache::write_block` writes through to the device and preserves
the invariant for the updated device. -/
theorem cacheWriteBlock_ok (d : Device) (c : Cache) (s : Nat) (b : List Nat)
    (hok : CacheOk d c) :
    (cacheWriteBlock d c s b).1 = (fun x => if x = s then b else d x) ∧
    CacheOk (fun x => if x = s then b else d x) (cacheWriteBlock d c s b).2 := by
  cases hpos : cachePos c s with
  | none =>
    have hred : cacheWriteBlock d c s b = (fun x => if x = s then b else d x, c) := by
      simp only [cacheWriteBlock, hpos]
    rw [hred]
    refine ⟨rfl, ?_⟩
    refine ⟨?_, hok.2⟩
    intro e he s2 b2 hsb
    have hne := cachePosGo_none s c hpos e he
    rw [hsb] at hne
    simp only [Option.map_some'] at hne
    have hs2 : s2 ≠ s := fun hcon => hne (by rw [hcon])
    have hcoh := hok.1 e he s2 b2 hsb
    simpa [hs2] using hcoh
  | some pos =>
    obtain ⟨hlt, hfst⟩ := cachePosGo_some s c pos hpos
    have hred : cacheWriteBlock d c s b =
        (fun x => if x = s then b else d x, (listSwap c 0 pos).set 0 (some (s, b))) := by
      simp only [cacheWriteBlock, hpos]
    rw [hred]
    refine ⟨rfl, ?_⟩
    have hperm : (listSwap c 0 pos).Perm c := swap_zero_perm c pos hlt
    have hget0 : (listSwap c 0 pos).getD 0 none = c.getD pos none :=
      swap_zero_getD c pos none hlt
    have hpair : (listSwap c 0 pos).Pairwise distinctSectors :=
      (List.Perm.pairwise_iff (fun h => distinctSectors_symm h) hperm).mpr hok.2
    cases hsw : listSwap c 0 pos with
    | nil =>
      exfalso
      have hlen := hperm.length_eq
      rw [hsw] at hlen
      simp at hlen
      omega
    | cons e0 rest =>
      have he0 : e0 = c.getD pos none := by
        rw [← hget0, hsw, List.getD_cons_zero]
      have he0fst : e0.map Prod.fst = some s := by rw [he0]; exact hfst
      have hpair2 : (e0 :: rest).Pairwise distinctSectors := hsw ▸ hpair
      have hsubrest : ∀ e ∈ rest, e ∈ c := by
        intro e he
        exact hperm.subset (by rw [hsw]; exact List.mem_cons_of_mem _ he)
      rw [List.set_cons_zero]
      constructor
      · intro e he s2 b2 hsb
        rcases List.mem_cons.mp he with rfl | he2
        · cases hsb
          simp
        · have hdist := (List.pairwise_cons.mp hpair2).1 e he2
          have hne : e.map Prod.fst ≠ some s := hdist s he0fst
          rw [hsb] at hne
          simp only [Option.map_some'] at hne
          have hs2 : s2 ≠ s := fun hcon => hne (by rw [hcon])
          have hcoh := hok.1 e (hsubrest e he2) s2 b2 hsb
          simpa [hs2] using hcoh
      · refine List.Pairwise.cons ?_ ((List.pairwise_cons.mp hpair2).2)
        intro e he s2 hmap
        simp only [Option.map_some'] at hmap
        cases hmap
        exact (List.pairwise_cons.mp hpair2).1 e he s he0fst

/-- The invariant of a freshly mounted (empty) cache. -/
theorem cacheOk_mount (d : Device) : CacheOk d Cache.mount := by
  constructor
  · intro e he s b hsb
    rw [List.eq_of_mem_replicate he] at hsb
    cases hsb
  · have hall : ∀ n, (List.replicate n (none : Option (Nat × List Nat))).Pairwise
        distinctSectors := by
      intro n
      induction n with
      | zero => exact List.Pairwise.nil
      | succ n ih =>
        rw [List.replicate_succ]
        refine List.Pairwise.cons ?_ ih
        intro e _ s hmap
        cases hmap
    exact hall 8

/-- Running any call sequence through a coherent cache returns the same
read results and the same final device contents as running it directly. -/
theorem runs_eq (ops : List DevOp) : ∀ (d : Device) (c : Cache), CacheOk d c →
    (runCached d c ops).1 = (runDirect d ops).1 ∧
    ∀ x, (runCached d c ops).2 x = (runDirect d ops).2 x := by
  induction ops with
  | nil => intro d c _; exact ⟨rfl, fun _ => rfl⟩
  | cons op ops ih =>
    intro d c hok
    cases op with
    | read s =>
      obtain ⟨hb, hok2⟩ := cacheReadBlock_ok d c s hok
      obtain ⟨ih1, ih2⟩ := ih d (cacheReadBlock d c s).2 hok2
      simp only [runCached, runDirect]
      exact ⟨by rw [hb, ih1], ih2⟩
    | write s b =>
      obtain ⟨hd2, hok2⟩ := cacheWriteBlock_ok d c s b hok
      obtain ⟨ih1, ih2⟩ := ih (fun x => if x = s then b else d x)
        (cacheWriteBlock d c s b).2 hok2
      simp only [runCached, runDirect]
      rw [hd2]
      exact ⟨ih1, ih2⟩

/-- C9 (confirmed): for every initial device state and every sequence of
read/write block operations, executing the sequence through the LRU
`BlockCache` (mounted empty) returns the same data to the caller and
leaves the same final contents on the underlying device as executing it
directly on the device without the cache. -/
theorem c9_cache_transparent (ops : List DevOp) (d : Device) :
    (runCached d Cache.mount ops).1 = (runDirect d ops).1 ∧
    ∀ x, (runCached d Cache.mount ops).2 x = (runDirect d ops).2 x :=
  runs_eq ops d Cache.mount (cacheOk_mount d)

end Ffs